import Mathlib

set_option maxRecDepth 8192

/-!
Verification of the nvm-windows self-update engine (tea4go/nvm).

The Go sources are shallowly embedded:
* strings are `List Char` (Go strings are byte strings; on the ASCII data these
  functions handle, byte positions and character positions coincide),
* file-system paths are lists of path segments (`List (List Char)`),
* fallible functions return `Option`,
* the status channel of the update engine is modelled by an explicit
  producer/consumer trace semantics.

Sections, in order:
1. zip extraction and the path-traversal guard (`file.Unzip` vs the update
   engine's private `unzip` in `upgrade/register.go`),
2. the `encoding.ToUTF8` conversion,
3. the backup-deletion scheduling arithmetic of `autoupdate`,
4. the `checkForUpdate` advisory-feed handling,
5. the update run's status-event trace (checksum gate, terminal events),
6. the `semver` package (parsing, rendering, comparison).
-/

/-! ### Section 1: zip extraction (src/file/file.go `Unzip`, upgrade/register.go `unzip`) -/

/-- `strings.Contains(name, "..")`: does the entry name contain the two-character
substring `..` anywhere? This is the exact guard `file.Unzip` performs. -/
def containsDotDot : List Char → Bool
  | [] => false
  | c :: rest => (decide (c = '.') && decide (rest.head? = some '.')) || containsDotDot rest

/-- Split a list at every occurrence of a separator (splitting a slash-separated
zip entry name into its path segments). -/
def splitAll (sep : Char) : List Char → List (List Char)
  | [] => [[]]
  | c :: rest =>
    let parts := splitAll sep rest
    if c = sep then [] :: parts
    else (c :: parts.headI) :: parts.tail

/-- Rejoin split segments with the separator (inverse of `splitAll`). -/
def joinSegs (sep : Char) : List (List Char) → List Char
  | [] => []
  | [x] => x
  | x :: xs => x ++ sep :: joinSegs sep xs

/-- One step of Go's `filepath.Clean` applied under an (already clean, rooted)
destination directory: empty and `.` segments are dropped, `..` pops the last
segment (popping past the root stays at the root), anything else is appended. -/
def cleanStep (acc : List (List Char)) (seg : List Char) : List (List Char) :=
  if seg = [] ∨ seg = ['.'] then acc
  else if seg = ['.', '.'] then acc.dropLast
  else acc ++ [seg]

/-- Model of `filepath.Join(dest, name)` for a clean destination `dest` (given as
segments) and a relative archive entry name `name`: the segments of `name` are
resolved against `dest`, with `..` climbing out of it. -/
def resolveUnder (dest : List (List Char)) (name : List Char) : List (List Char) :=
  (splitAll '/' name).foldl cleanStep dest

/-- A zip archive entry: its name and whether it is a directory entry. -/
structure ZipEntry where
  name : List Char
  isDir : Bool
deriving DecidableEq, Repr

/-- Paths written by the update engine's private `unzip` (upgrade/register.go,
lines 1167–1215): every non-directory entry is streamed to
`filepath.Join(dest, f.Name)`; there is no validation of the entry name. -/
def unzipUpgradeWrites (dest : List (List Char)) (entries : List ZipEntry) :
    List (List (List Char)) :=
  (entries.filter (fun e => !e.isDir)).map (fun e => resolveUnder dest e.name)

/-- Paths written by `file.Unzip` (src/file/file.go, lines 27–84): an entry is
extracted only when its name does not contain `..`. -/
def unzipFileWrites (dest : List (List Char)) (entries : List ZipEntry) :
    List (List (List Char)) :=
  ((entries.filter (fun e => !containsDotDot e.name)).filter (fun e => !e.isDir)).map
    (fun e => resolveUnder dest e.name)

/-- Entries that `file.Unzip` skips and logs ("failed to extract file ..."). -/
def unzipFileSkipped (entries : List ZipEntry) : List ZipEntry :=
  entries.filter (fun e => containsDotDot e.name)

/-- Helper: turn a string literal into the `List Char` representation. -/
def chars (s : String) : List Char := s.toList

theorem splitAll_ne_nil (sep : Char) (s : List Char) : splitAll sep s ≠ [] := by
  cases s with
  | nil => simp [splitAll]
  | cons c rest =>
    simp only [splitAll]
    split <;> simp

/-- `joinSegs` reconstructs the original string from `splitAll`'s segments. -/
theorem joinSegs_splitAll (sep : Char) (s : List Char) :
    joinSegs sep (splitAll sep s) = s := by
  induction s with
  | nil => rfl
  | cons c rest ih =>
    simp only [splitAll]
    by_cases hc : c = sep
    · simp only [if_pos hc]
      rcases h : splitAll sep rest with _ | ⟨p, ps⟩
      · exact absurd h (splitAll_ne_nil sep rest)
      · rw [h] at ih
        rw [hc]
        simpa [joinSegs] using ih
    · simp only [if_neg hc]
      rcases h : splitAll sep rest with _ | ⟨p, ps⟩
      · exact absurd h (splitAll_ne_nil sep rest)
      · rw [h] at ih
        cases ps with
        | nil => simpa [joinSegs] using ih
        | cons q qs =>
          simp only [List.headI, List.tail]
          simp only [joinSegs] at ih ⊢
          simp [← ih]

/-- Every segment occurs contiguously inside the rejoined string. -/
theorem mem_joinSegs_infix (sep : Char) (parts : List (List Char)) (seg : List Char)
    (h : seg ∈ parts) : ∃ l r, joinSegs sep parts = l ++ (seg ++ r) := by
  induction parts with
  | nil => simp at h
  | cons p ps ih =>
    rcases List.mem_cons.mp h with h1 | h1
    · subst h1
      cases ps with
      | nil => exact ⟨[], [], by simp [joinSegs]⟩
      | cons q qs => exact ⟨[], sep :: joinSegs sep (q :: qs), by simp [joinSegs]⟩
    · obtain ⟨l, r, hr⟩ := ih h1
      cases ps with
      | nil => simp at h1
      | cons q qs =>
        exact ⟨p ++ sep :: l, r, by simp [joinSegs, hr]⟩

/-- A string of the shape `l ++ ".." ++ r` contains the substring `..`. -/
theorem containsDotDot_append (l r : List Char) :
    containsDotDot (l ++ '.' :: '.' :: r) = true := by
  induction l with
  | nil => simp [containsDotDot]
  | cons c cs ih => simp [containsDotDot, ih]

/-- If the name has no `..` substring, none of its path segments is `..`. -/
theorem no_dotdot_seg (name : List Char) (h : containsDotDot name = false)
    (seg : List Char) (hm : seg ∈ splitAll '/' name) : seg ≠ ['.', '.'] := by
  intro hseg
  subst hseg
  obtain ⟨l, r, hr⟩ := mem_joinSegs_infix '/' (splitAll '/' name) _ hm
  rw [joinSegs_splitAll] at hr
  have hr' : name = l ++ '.' :: '.' :: r := hr
  rw [hr', containsDotDot_append] at h
  exact absurd h (by simp)

/-- Folding `cleanStep` over `..`-free segments only ever appends: the
destination stays a prefix of the resolved path. -/
theorem foldl_cleanStep_extends (segs : List (List Char))
    (h : ∀ seg ∈ segs, seg ≠ ['.', '.']) (dest : List (List Char)) :
    ∃ ext, segs.foldl cleanStep dest = dest ++ ext := by
  induction segs generalizing dest with
  | nil => exact ⟨[], by simp⟩
  | cons s ss ih =>
    have hs : s ≠ ['.', '.'] := h s (List.mem_cons_self s ss)
    have h' : ∀ seg ∈ ss, seg ≠ ['.', '.'] := fun seg hm => h seg (List.mem_cons_of_mem s hm)
    simp only [List.foldl_cons]
    by_cases h0 : s = [] ∨ s = ['.']
    · rw [cleanStep, if_pos h0]
      exact ih h' dest
    · rw [cleanStep, if_neg h0, if_neg hs]
      obtain ⟨ext, hext⟩ := ih h' (dest ++ [s])
      exact ⟨s :: ext, by simpa using hext⟩

/-- **C1, counterexample.** The update engine extracts with its own `unzip`
(upgrade/register.go), which performs no `..` validation: the archive entry
`../evil.exe`, extracted to the scratch root `tmp/assets`, is written to
`tmp/evil.exe` — outside the extraction root. -/
theorem c1_upgrade_unzip_escapes :
    unzipUpgradeWrites [chars "tmp", chars "assets"] [⟨chars "../evil.exe", false⟩]
        = [[chars "tmp", chars "evil.exe"]] ∧
      ¬ ([chars "tmp", chars "assets"] <+:
          [chars "tmp", chars "evil.exe"]) := by
  constructor
  · rfl
  · decide

/-- **C1, amended.** The traversal guard holds for `file.Unzip` only: every path
it writes stays under the extraction root, and every entry whose name contains
`..` is skipped and recorded; the update engine's private `unzip` performs no
such validation (see `c1_upgrade_unzip_escapes`). -/
theorem c1_file_unzip_guard (dest : List (List Char)) (entries : List ZipEntry) :
    (∀ p ∈ unzipFileWrites dest entries, dest <+: p) ∧
      (∀ e ∈ entries, containsDotDot e.name = true → e ∈ unzipFileSkipped entries) := by
  constructor
  · intro p hp
    simp only [unzipFileWrites, List.mem_map, List.mem_filter] at hp
    obtain ⟨e, ⟨⟨he, hdd⟩, _⟩, hres⟩ := hp
    have hdd' : containsDotDot e.name = false := by
      simpa using hdd
    obtain ⟨ext, hext⟩ := foldl_cleanStep_extends (splitAll '/' e.name)
      (no_dotdot_seg e.name hdd') dest
    rw [← hres, resolveUnder, hext]
    exact List.prefix_append dest ext
  · intro e he hdd
    simp [unzipFileSkipped, List.mem_filter, he, hdd]

/-- Witness for `c1_file_unzip_guard` at a concrete archive. -/
theorem c1_file_unzip_guard_witness :
    ([chars "tmp"] <+: resolveUnder [chars "tmp"] (chars "a/b.txt")) ∧
      (⟨chars "../evil.exe", false⟩ : ZipEntry) ∈
        unzipFileSkipped [⟨chars "../evil.exe", false⟩, ⟨chars "a/b.txt", false⟩] := by
  refine ⟨?_, ?_⟩
  · have h := (c1_file_unzip_guard [chars "tmp"]
      [⟨chars "../evil.exe", false⟩, ⟨chars "a/b.txt", false⟩]).1
    exact h (resolveUnder [chars "tmp"] (chars "a/b.txt")) (by decide)
  · exact (c1_file_unzip_guard [chars "tmp"]
      [⟨chars "../evil.exe", false⟩, ⟨chars "a/b.txt", false⟩]).2
      ⟨chars "../evil.exe", false⟩ (by decide) (by decide)

/-! ### Section 2: `encoding.ToUTF8` (src/unnamed/part_001, lines 39–47)

`ToUTF8` allocates a buffer of the input's byte length, decodes the input as
UTF-8 rune by rune (Go's `for range` over a string, which yields U+FFFD with
width 1 on invalid bytes) and re-encodes each rune into the buffer with
`utf8.EncodeRune`, which panics when the remaining buffer is too small.
Bytes are modelled as `Nat` (< 256), a panic as `none`. -/

/-- Continuation-byte acceptance ranges of Go's `unicode/utf8` decode table:
the admissible range of the first continuation byte depends on the leading
byte. -/
def utf8Accept1 (b0 b1 : Nat) : Prop :=
  if b0 = 0xE0 then 0xA0 ≤ b1 ∧ b1 ≤ 0xBF
  else if b0 = 0xED then 0x80 ≤ b1 ∧ b1 ≤ 0x9F
  else if b0 = 0xF0 then 0x90 ≤ b1 ∧ b1 ≤ 0xBF
  else if b0 = 0xF4 then 0x80 ≤ b1 ∧ b1 ≤ 0x8F
  else 0x80 ≤ b1 ∧ b1 ≤ 0xBF

instance (b0 b1 : Nat) : Decidable (utf8Accept1 b0 b1) := by
  unfold utf8Accept1; infer_instance

/-- Model of one step of Go's string range loop (`utf8.DecodeRuneInString`):
given the first byte and the remaining bytes, returns the decoded rune and how
many additional bytes (beyond the first) are consumed. Invalid input yields
`(0xFFFD, 0)` — Go's `(RuneError, 1)`. Out-of-range bytes are read as
`headI`'s default `0`, which fails every continuation range, exactly like Go's
short-input path. -/
def utf8DecodeStep (b0 : Nat) (rest : List Nat) : Nat × Nat :=
  if b0 < 0x80 then (b0, 0)
  else if 0xC2 ≤ b0 ∧ b0 ≤ 0xDF then
    if 0x80 ≤ rest.headI ∧ rest.headI ≤ 0xBF then
      ((b0 - 0xC0) * 64 + (rest.headI - 0x80), 1)
    else (0xFFFD, 0)
  else if 0xE0 ≤ b0 ∧ b0 ≤ 0xEF then
    if utf8Accept1 b0 rest.headI ∧ 0x80 ≤ rest.tail.headI ∧ rest.tail.headI ≤ 0xBF then
      ((b0 - 0xE0) * 4096 + (rest.headI - 0x80) * 64 + (rest.tail.headI - 0x80), 2)
    else (0xFFFD, 0)
  else if 0xF0 ≤ b0 ∧ b0 ≤ 0xF4 then
    if utf8Accept1 b0 rest.headI ∧ (0x80 ≤ rest.tail.headI ∧ rest.tail.headI ≤ 0xBF) ∧
        (0x80 ≤ rest.tail.tail.headI ∧ rest.tail.tail.headI ≤ 0xBF) then
      ((b0 - 0xF0) * 262144 + (rest.headI - 0x80) * 4096 + (rest.tail.headI - 0x80) * 64 +
        (rest.tail.tail.headI - 0x80), 3)
    else (0xFFFD, 0)
  else (0xFFFD, 0)

/-- Model of `utf8.EncodeRune`'s output bytes (surrogates and out-of-range
runes encode as U+FFFD, exactly as in Go). -/
def utf8EncodeBytes (r : Nat) : List Nat :=
  if r < 0x80 then [r]
  else if r < 0x800 then [0xC0 + r / 64, 0x80 + r % 64]
  else if (0xD800 ≤ r ∧ r < 0xE000) ∨ 0x10FFFF < r then [0xEF, 0xBF, 0xBD]
  else if r < 0x10000 then [0xE0 + r / 4096, 0x80 + (r / 64) % 64, 0x80 + r % 64]
  else [0xF0 + r / 262144, 0x80 + (r / 4096) % 64, 0x80 + (r / 64) % 64, 0x80 + r % 64]

/-- The loop of `ToUTF8`: `room` is the remaining space in the output buffer
(`len(b) - i`); `utf8.EncodeRune` panics (`none`) when the encoding does not
fit. The fuel argument is an embedding artifact: every iteration consumes at
least one input byte, so `fuel = bs.length` never runs out. -/
def toUTF8Aux : Nat → List Nat → Nat → List Nat → Option (List Nat)
  | _, [], _, acc => some acc
  | 0, _ :: _, _, _ => none
  | fuel + 1, b :: rest, room, acc =>
    let d := utf8DecodeStep b rest
    let enc := utf8EncodeBytes d.1
    if enc.length ≤ room then toUTF8Aux fuel (rest.drop d.2) (room - enc.length) (acc ++ enc)
    else none

/-- Model of `encoding.ToUTF8`: buffer size is the input's byte length. -/
def ToUTF8 (content : List Nat) : Option (List Nat) :=
  toUTF8Aux content.length content content.length []

/-- Valid Unicode scalar values (what a well-formed UTF-8 string encodes). -/
def isScalar (r : Nat) : Bool :=
  decide (r < 0xD800 ∨ (0xE000 ≤ r ∧ r ≤ 0x10FFFF))

/-- The byte string encoding a sequence of runes. -/
def encodesRunes (rs : List Nat) : List Nat :=
  (rs.map utf8EncodeBytes).flatten

/-- Decoding an encoded scalar consumes exactly its encoding and returns the
rune. -/
theorem utf8_decode_encode (r : Nat) (hr : isScalar r = true) (rest : List Nat) :
    ∃ b0 t, utf8EncodeBytes r = b0 :: t ∧
      utf8DecodeStep b0 (t ++ rest) = (r, t.length) := by
  have hr' : r < 0xD800 ∨ (0xE000 ≤ r ∧ r ≤ 0x10FFFF) := by
    simpa [isScalar] using hr
  by_cases h1 : r < 0x80
  · refine ⟨r, [], by simp [utf8EncodeBytes, h1], ?_⟩
    simp [utf8DecodeStep, h1]
  · by_cases h2 : r < 0x800
    · refine ⟨0xC0 + r / 64, [0x80 + r % 64], by simp [utf8EncodeBytes, h1, h2], ?_⟩
      rw [utf8DecodeStep]
      have c1 : ¬ (0xC0 + r / 64 < 0x80) := by omega
      have c2 : 0xC2 ≤ 0xC0 + r / 64 ∧ 0xC0 + r / 64 ≤ 0xDF := by omega
      rw [if_neg c1, if_pos c2]
      simp only [List.cons_append, List.headI]
      rw [if_pos (by omega : 0x80 ≤ 0x80 + r % 64 ∧ 0x80 + r % 64 ≤ 0xBF)]
      refine Prod.ext ?_ rfl
      show (0xC0 + r / 64 - 0xC0) * 64 + (0x80 + r % 64 - 0x80) = r
      omega
    · by_cases h3 : r < 0x10000
      · have hsur : ¬ ((0xD800 ≤ r ∧ r < 0xE000) ∨ 0x10FFFF < r) := by omega
        refine ⟨0xE0 + r / 4096, [0x80 + (r / 64) % 64, 0x80 + r % 64],
          by simp [utf8EncodeBytes, h1, h2, hsur, h3], ?_⟩
        rw [utf8DecodeStep]
        have c1 : ¬ (0xE0 + r / 4096 < 0x80) := by omega
        have c2 : ¬ (0xC2 ≤ 0xE0 + r / 4096 ∧ 0xE0 + r / 4096 ≤ 0xDF) := by omega
        have c3 : 0xE0 ≤ 0xE0 + r / 4096 ∧ 0xE0 + r / 4096 ≤ 0xEF := by omega
        rw [if_neg c1, if_neg c2, if_pos c3]
        simp only [List.cons_append, List.headI, List.tail_cons]
        have e1 : r / 64 / 64 = r / 4096 := by rw [Nat.div_div_eq_div_mul]
        have hacc : utf8Accept1 (0xE0 + r / 4096) (0x80 + (r / 64) % 64) := by
          unfold utf8Accept1
          split_ifs <;> omega
        rw [if_pos ⟨hacc, by omega, by omega⟩]
        refine Prod.ext ?_ rfl
        show (0xE0 + r / 4096 - 0xE0) * 4096 + (0x80 + (r / 64) % 64 - 0x80) * 64 +
          (0x80 + r % 64 - 0x80) = r
        omega
      · have h4 : r ≤ 0x10FFFF := by omega
        have hsur : ¬ ((0xD800 ≤ r ∧ r < 0xE000) ∨ 0x10FFFF < r) := by omega
        refine ⟨0xF0 + r / 262144,
          [0x80 + (r / 4096) % 64, 0x80 + (r / 64) % 64, 0x80 + r % 64],
          by simp [utf8EncodeBytes, h1, h2, hsur, h3], ?_⟩
        rw [utf8DecodeStep]
        have c1 : ¬ (0xF0 + r / 262144 < 0x80) := by omega
        have c2 : ¬ (0xC2 ≤ 0xF0 + r / 262144 ∧ 0xF0 + r / 262144 ≤ 0xDF) := by omega
        have c3 : ¬ (0xE0 ≤ 0xF0 + r / 262144 ∧ 0xF0 + r / 262144 ≤ 0xEF) := by omega
        have c4 : 0xF0 ≤ 0xF0 + r / 262144 ∧ 0xF0 + r / 262144 ≤ 0xF4 := by omega
        rw [if_neg c1, if_neg c2, if_neg c3, if_pos c4]
        simp only [List.cons_append, List.headI, List.tail_cons]
        have e1 : r / 64 / 64 = r / 4096 := by rw [Nat.div_div_eq_div_mul]
        have e2 : r / 4096 / 64 = r / 262144 := by rw [Nat.div_div_eq_div_mul]
        have hacc : utf8Accept1 (0xF0 + r / 262144) (0x80 + (r / 4096) % 64) := by
          unfold utf8Accept1
          split_ifs <;> omega
        rw [if_pos ⟨hacc, ⟨by omega, by omega⟩, by omega, by omega⟩]
        refine Prod.ext ?_ rfl
        show (0xF0 + r / 262144 - 0xF0) * 262144 + (0x80 + (r / 4096) % 64 - 0x80) * 4096 +
          (0x80 + (r / 64) % 64 - 0x80) * 64 + (0x80 + r % 64 - 0x80) = r
        omega

/-- Unfolding equation for one iteration of the `ToUTF8` loop. -/
theorem toUTF8Aux_cons (f b : Nat) (rest : List Nat) (room : Nat) (acc : List Nat) :
    toUTF8Aux (f + 1) (b :: rest) room acc =
      if (utf8EncodeBytes (utf8DecodeStep b rest).1).length ≤ room then
        toUTF8Aux f (rest.drop (utf8DecodeStep b rest).2)
          (room - (utf8EncodeBytes (utf8DecodeStep b rest).1).length)
          (acc ++ utf8EncodeBytes (utf8DecodeStep b rest).1)
      else none := rfl

/-- On a valid UTF-8 input the loop copies the input byte for byte. -/
theorem toUTF8Aux_valid (rs : List Nat) (h : ∀ r ∈ rs, isScalar r = true) :
    ∀ fuel acc, (encodesRunes rs).length ≤ fuel →
      toUTF8Aux fuel (encodesRunes rs) (encodesRunes rs).length acc =
        some (acc ++ encodesRunes rs) := by
  induction rs with
  | nil => intro fuel acc _; simp [encodesRunes, toUTF8Aux]
  | cons r rs' ih =>
    intro fuel acc hfuel
    have hr : isScalar r = true := h r (List.mem_cons_self r rs')
    have h' : ∀ x ∈ rs', isScalar x = true := fun x hx => h x (List.mem_cons_of_mem r hx)
    obtain ⟨b0, t, henc, hdec⟩ := utf8_decode_encode r hr (encodesRunes rs')
    have hE : encodesRunes (r :: rs') = (b0 :: t) ++ encodesRunes rs' := by
      simp [encodesRunes, henc]
    rw [hE] at hfuel ⊢
    rcases fuel with _ | f
    · simp at hfuel
    · rw [List.cons_append, toUTF8Aux_cons, hdec]
      dsimp only
      rw [henc]
      rw [if_pos (by simp)]
      rw [List.drop_left]
      have hroom : (b0 :: (t ++ encodesRunes rs')).length - (b0 :: t).length =
          (encodesRunes rs').length := by simp
      rw [hroom]
      have hfuel' : (encodesRunes rs').length ≤ f := by
        simp at hfuel
        omega
      rw [ih h' f (acc ++ (b0 :: t)) hfuel']
      simp

/-- Whenever the loop returns, the output fits in the buffer. -/
theorem toUTF8Aux_length :
    ∀ fuel bs room acc out, toUTF8Aux fuel bs room acc = some out →
      out.length ≤ acc.length + room := by
  intro fuel
  induction fuel with
  | zero =>
    intro bs room acc out hout
    cases bs with
    | nil => simp [toUTF8Aux] at hout; simp [← hout]
    | cons b rest => simp [toUTF8Aux] at hout
  | succ f ih =>
    intro bs room acc out hout
    cases bs with
    | nil => simp [toUTF8Aux] at hout; simp [← hout]
    | cons b rest =>
      simp only [toUTF8Aux] at hout
      split at hout
      · have := ih _ _ _ _ hout
        simp at this ⊢
        omega
      · exact absurd hout (by simp)

/-- **C10, counterexample.** `ToUTF8` is not total: on the one-byte string
`"\xff"` (not valid UTF-8) the replacement rune U+FFFD needs three bytes but
the buffer has one, and `utf8.EncodeRune` panics (`none`). -/
theorem c10_toUTF8_panics : ToUTF8 [0xFF] = none := by rfl

/-- **C10, amended.** On every input that is a valid UTF-8 encoding, `ToUTF8`
returns (no panic) and yields the input itself — so its length never exceeds
the input's; and whenever `ToUTF8` returns at all, the output is no longer
than the input. On inputs containing invalid UTF-8 it can panic
(see `c10_toUTF8_panics`). -/
theorem c10_toUTF8_valid_total :
    (∀ rs, (∀ r ∈ rs, isScalar r = true) →
      ToUTF8 (encodesRunes rs) = some (encodesRunes rs)) ∧
    (∀ bs out, ToUTF8 bs = some out → out.length ≤ bs.length) := by
  constructor
  · intro rs h
    have := toUTF8Aux_valid rs h (encodesRunes rs).length [] le_rfl
    simpa [ToUTF8] using this
  · intro bs out hout
    have := toUTF8Aux_length bs.length bs bs.length [] out hout
    simpa using this

/-- Witness for `c10_toUTF8_valid_total` on concrete inputs: the two-rune
string `"H€"` survives the round trip unchanged, and a successful run obeys
the length bound. -/
theorem c10_toUTF8_valid_total_witness :
    ToUTF8 (encodesRunes [0x48, 0x20AC]) = some (encodesRunes [0x48, 0x20AC]) ∧
      ∀ out, ToUTF8 [0x61, 0x62] = some out → out.length ≤ 2 := by
  constructor
  · exact c10_toUTF8_valid_total.1 [0x48, 0x20AC] (by decide)
  · intro out hout
    exact c10_toUTF8_valid_total.2 [0x61, 0x62] out hout

/-! ### Section 6a: the `semver` package — definitions
(src/unnamed/part_001, lines 92–561)

Strings are `List Char`; `uint64` fields are `Nat` together with the
`< 2^64` overflow check inside `parseUint`. -/

namespace semver

/-- The character-set constants of the package. -/
def numbers : List Char := chars "0123456789"

def alphas : List Char := chars "abcdefghijklmnopqrstuvwxyzABCDEFGHIJKLMNOPQRSTUVWXYZ-"

def alphanum : List Char := alphas ++ numbers

/-- `containsOnly(s, set)`: every character of `s` lies in `set`. -/
def containsOnly (s set : List Char) : Bool :=
  s.all fun c => set.contains c

/-- `hasLeadingZeroes(s)`: more than one character and the first is `'0'`. -/
def hasLeadingZeroes (s : List Char) : Bool :=
  decide (1 < s.length) && decide (s.headI = '0')

/-- Decimal value of a digit character. -/
def digitVal (c : Char) : Nat := c.toNat - 48

/-- Decimal value of a digit string (most significant first). -/
def digitsVal (s : List Char) : Nat :=
  s.foldl (fun a c => a * 10 + digitVal c) 0

/-- Model of `strconv.ParseUint(s, 10, 64)`: fails on the empty string, on any
non-digit, and on overflow past `2^64 - 1`. -/
def parseUint (s : List Char) : Option Nat :=
  if s = [] then none
  else if !(s.all Char.isDigit) then none
  else if digitsVal s < 2 ^ 64 then some (digitsVal s) else none

/-- The decimal digit characters. -/
def digitChar : Nat → Char
  | 0 => '0' | 1 => '1' | 2 => '2' | 3 => '3' | 4 => '4'
  | 5 => '5' | 6 => '6' | 7 => '7' | 8 => '8' | 9 => '9'
  | _ => '*'

/-- Loop of the decimal formatter; the fuel argument is an embedding artifact
(`fuel = n + 1` always suffices). -/
def natDigitsAux : Nat → Nat → List Char → List Char
  | 0, _, acc => acc
  | fuel + 1, n, acc =>
    if n < 10 then digitChar (n % 10) :: acc
    else natDigitsAux fuel (n / 10) (digitChar (n % 10) :: acc)

/-- Model of `strconv.FormatUint(n, 10)`: decimal digits, most significant
first. -/
def formatUint (n : Nat) : List Char := natDigitsAux (n + 1) n []

/-- `PRVersion`: a prerelease identifier — numeric or alphanumeric. -/
structure PRVersion where
  VersionStr : List Char
  VersionNum : Nat
  IsNum : Bool
deriving DecidableEq, Repr

/-- `Version`: major/minor/patch plus prerelease identifiers and build
metadata. -/
structure Version where
  Major : Nat
  Minor : Nat
  Patch : Nat
  Pre : List PRVersion
  Build : List (List Char)
deriving DecidableEq, Repr

/-- `NewPRVersion(s)`: parse one prerelease identifier. -/
def NewPRVersion (s : List Char) : Option PRVersion :=
  if s = [] then none
  else if containsOnly s numbers then
    if hasLeadingZeroes s then none
    else (parseUint s).map fun n => ⟨[], n, true⟩
  else if containsOnly s alphanum then some ⟨s, 0, false⟩
  else none

/-- `PRVersion.String()`. -/
def PRVersion.render (p : PRVersion) : List Char :=
  if p.IsNum then formatUint p.VersionNum else p.VersionStr

/-- `Version.String()`: `Major.Minor.Patch[-Pre][+Build]`. -/
def Version.render (v : Version) : List Char :=
  formatUint v.Major ++ '.' ::
    (formatUint v.Minor ++ '.' ::
      (formatUint v.Patch ++
        (if v.Pre = [] then [] else '-' :: joinSegs '.' (v.Pre.map PRVersion.render)) ++
        (if v.Build = [] then [] else '+' :: joinSegs '.' v.Build)))

/-- Go's lexicographic byte comparison of strings, as a three-way comparison
(on the ASCII identifiers handled here, byte order and code-point order
coincide). -/
def lexCmp : List Char → List Char → Int
  | [], [] => 0
  | [], _ :: _ => -1
  | _ :: _, [] => 1
  | a :: as, b :: bs =>
    if a = b then lexCmp as bs
    else if a.toNat < b.toNat then -1 else 1

/-- Go's `v.VersionStr > o.VersionStr`. -/
def strGT (a b : List Char) : Prop := lexCmp a b = 1

instance (a b : List Char) : Decidable (strGT a b) := by
  unfold strGT; infer_instance

/-- `PRVersion.Compare` (lines 488–510). -/
def PRVersion.compare (v o : PRVersion) : Int :=
  if v.IsNum ∧ ¬o.IsNum then -1
  else if ¬v.IsNum ∧ o.IsNum then 1
  else if v.IsNum ∧ o.IsNum then
    if v.VersionNum = o.VersionNum then 0
    else if v.VersionNum > o.VersionNum then 1
    else -1
  else
    if v.VersionStr = o.VersionStr then 0
    else if strGT v.VersionStr o.VersionStr then 1
    else -1

/-- The pairwise prerelease loop of `Version.Compare` (lines 239–257),
including its length tie-break: exhausting both lists gives 0, exhausting
only the left list gives -1, only the right gives 1. -/
def preLoop : List PRVersion → List PRVersion → Int
  | [], [] => 0
  | [], _ :: _ => -1
  | _ :: _, [] => 1
  | a :: as, b :: bs =>
    if a.compare b = 0 then preLoop as bs else a.compare b

/-- `Version.Compare` (lines 207–260). -/
def Version.compare (v o : Version) : Int :=
  if v.Major ≠ o.Major then (if v.Major > o.Major then 1 else -1)
  else if v.Minor ≠ o.Minor then (if v.Minor > o.Minor then 1 else -1)
  else if v.Patch ≠ o.Patch then (if v.Patch > o.Patch then 1 else -1)
  else if v.Pre = [] ∧ o.Pre = [] then 0
  else if v.Pre = [] ∧ o.Pre ≠ [] then 1
  else if v.Pre ≠ [] ∧ o.Pre = [] then -1
  else preLoop v.Pre o.Pre

/-- `Version.LT` (compare = -1). -/
def Version.lt (v o : Version) : Bool := decide (Version.compare v o = -1)

/-- `strings.Replace(s, "v", "", 1)`: remove the first `v` occurring anywhere
in the string (the source intends the optional leading `v`). -/
def removeFirstV : List Char → List Char
  | [] => []
  | c :: rest => if c = 'v' then rest else c :: removeFirstV rest

/-- Split at the first occurrence of a separator. -/
def breakAt (sep : Char) : List Char → Option (List Char × List Char)
  | [] => none
  | c :: rest =>
    if c = sep then some ([], rest)
    else (breakAt sep rest).map fun p => (c :: p.1, p.2)

/-- Model of `strings.SplitN(s, sep, n)` for `n ≥ 1`. -/
def splitN (sep : Char) : Nat → List Char → List (List Char)
  | 0, _ => []
  | 1, s => [s]
  | n + 2, s =>
    match breakAt sep s with
    | none => [s]
    | some (a, b) => a :: splitN sep (n + 1) b

/-- Model of `strings.Index(s, c)` (position of the first occurrence). -/
def indexOf (c : Char) : List Char → Option Nat
  | [] => none
  | x :: rest =>
    if x = c then some 0 else (indexOf c rest).map (· + 1)

/-- Major/minor/patch field validation as performed by `Parse`:
digits only, no leading zeroes, then `ParseUint`. -/
def parseNum (x : List Char) : Option Nat :=
  if ¬containsOnly x numbers then none
  else if hasLeadingZeroes x then none
  else parseUint x

/-- The `subVersionIndex` / adjusted-`preIndex` disambiguation of `Parse`
(lines 356–376) applied to the third split part: returns
(patch-end index, prerelease separator index if any, build separator index if
any). A `+` before the first `-` means there is no prerelease. -/
def subVersionIndex (rest : List Char) : Nat × Option Nat × Option Nat :=
  match indexOf '-' rest, indexOf '+' rest with
  | some pi, none => (pi, some pi, none)
  | none, some bi => (bi, none, some bi)
  | none, none => (rest.length, none, none)
  | some pi, some bi =>
    if bi < pi then (bi, none, some bi) else (pi, some pi, some bi)

/-- The prerelease portion of the third split part (between `subVersionIndex`
and the build separator, when a prerelease is present). -/
def preTokens (rest : List Char) : List (List Char) :=
  match subVersionIndex rest with
  | (sub, some _, some bi) => splitAll '.' ((rest.drop (sub + 1)).take (bi - (sub + 1)))
  | (sub, some _, none) => splitAll '.' (rest.drop (sub + 1))
  | _ => []

/-- The build-metadata portion of the third split part. -/
def buildTokens (rest : List Char) : List (List Char) :=
  match subVersionIndex rest with
  | (_, _, some bi) => splitAll '.' (rest.drop (bi + 1))
  | _ => []

/-- Validation of one build token (lines 416–422). -/
def buildToken (b : List Char) : Option (List Char) :=
  if b = [] then none
  else if ¬containsOnly b alphanum then none
  else some b

/-- The body of `Parse` after the `v`-removal step. -/
def parseCore (s : List Char) : Option Version :=
  if s = [] then none
  else
    match splitN '.' 3 s with
    | [majS, minS, rest] => do
      let major ← parseNum majS
      let minor ← parseNum minS
      let (sub, preIdx, buildIdx) := subVersionIndex rest
      let patch ← parseNum (rest.take sub)
      let pre ←
        match preIdx with
        | some _ =>
          (match buildIdx with
            | some bi => (splitAll '.' ((rest.drop (sub + 1)).take (bi - (sub + 1)))).mapM
                NewPRVersion
            | none => (splitAll '.' (rest.drop (sub + 1))).mapM NewPRVersion)
        | none => pure []
      let build ←
        match buildIdx with
        | some bi => (splitAll '.' (rest.drop (bi + 1))).mapM buildToken
        | none => pure []
      pure ⟨major, minor, patch, pre, build⟩
    | _ => none

/-- `Parse` (lines 319–428): remove the first `v`, then parse. -/
def Parse (s : List Char) : Option Version :=
  parseCore (removeFirstV s)

/-- Well-formedness of a prerelease identifier as produced by `NewPRVersion`:
numeric identifiers carry no string and fit in `uint64`; alphanumeric
identifiers are nonempty, in the `alphanum` alphabet, not all digits, and
carry the zero numeric field. -/
def PRVersion.WFb (p : PRVersion) : Bool :=
  if p.IsNum then decide (p.VersionStr = []) && decide (p.VersionNum < 2 ^ 64)
  else decide (p.VersionNum = 0) && !decide (p.VersionStr = []) &&
    containsOnly p.VersionStr alphanum && !containsOnly p.VersionStr numbers

/-- Well-formedness of a `Version` value (the image of `Parse`): numeric
fields fit in `uint64`, prerelease identifiers are well formed, build tokens
are nonempty and alphanumeric. -/
def Version.WFb (v : Version) : Bool :=
  decide (v.Major < 2 ^ 64) && decide (v.Minor < 2 ^ 64) && decide (v.Patch < 2 ^ 64) &&
    v.Pre.all PRVersion.WFb &&
    v.Build.all (fun b => !decide (b = []) && containsOnly b alphanum)

/-- Parse two version strings and compare them (used for the concrete
comparison examples). -/
def cmpStrings (x y : String) : Option Int :=
  (Parse (chars x)).bind fun a => (Parse (chars y)).map fun b => Version.compare a b

end semver

/-! ### Section 6b: decimal formatting and parsing lemmas -/

namespace semver

theorem natDigitsAux_acc (fuel : Nat) : ∀ n acc,
    natDigitsAux fuel n acc = natDigitsAux fuel n [] ++ acc := by
  induction fuel with
  | zero => intro n acc; simp [natDigitsAux]
  | succ f ih =>
    intro n acc
    by_cases h : n < 10
    · simp [natDigitsAux, h]
    · simp only [natDigitsAux, if_neg h]
      rw [ih (n / 10) (digitChar (n % 10) :: acc), ih (n / 10) [digitChar (n % 10)]]
      simp

theorem natDigitsAux_fuel : ∀ f₁ f₂ n, 0 < f₁ → 0 < f₂ → n < 10 ^ f₁ → n < 10 ^ f₂ →
    natDigitsAux f₁ n [] = natDigitsAux f₂ n [] := by
  intro f₁
  induction f₁ with
  | zero => intro f₂ n h1; omega
  | succ a ih =>
    intro f₂ n _ h2 hn1 hn2
    rcases f₂ with _ | b
    · omega
    · by_cases h : n < 10
      · simp [natDigitsAux, h]
      · simp only [natDigitsAux, if_neg h]
        rw [natDigitsAux_acc a, natDigitsAux_acc b]
        have ha : 0 < a := by
          by_contra hcon
          have : a = 0 := by omega
          subst this
          simp at hn1
          omega
        have hb : 0 < b := by
          by_contra hcon
          have : b = 0 := by omega
          subst this
          simp at hn2
          omega
        have hna : n / 10 < 10 ^ a := by
          have : n < 10 * 10 ^ a := by
            calc n < 10 ^ (a + 1) := hn1
            _ = 10 * 10 ^ a := by ring
          exact Nat.div_lt_of_lt_mul this
        have hnb : n / 10 < 10 ^ b := by
          have : n < 10 * 10 ^ b := by
            calc n < 10 ^ (b + 1) := hn2
            _ = 10 * 10 ^ b := by ring
          exact Nat.div_lt_of_lt_mul this
        rw [ih b (n / 10) ha hb hna hnb]

theorem formatUint_lt (n : Nat) (h : n < 10) : formatUint n = [digitChar n] := by
  have : n % 10 = n := Nat.mod_eq_of_lt h
  simp [formatUint, natDigitsAux, h, this]

theorem formatUint_ge (n : Nat) (h : 10 ≤ n) :
    formatUint n = formatUint (n / 10) ++ [digitChar (n % 10)] := by
  have h' : ¬ n < 10 := by omega
  rw [formatUint, natDigitsAux, if_neg h', natDigitsAux_acc]
  congr 1
  rw [formatUint]
  apply natDigitsAux_fuel
  · omega
  · omega
  · have hn : n < 10 ^ n := Nat.lt_pow_self (by norm_num) n
    have : n / 10 ≤ n := Nat.div_le_self n 10
    calc n / 10 ≤ n := this
      _ < 10 ^ n := hn
  · have : n / 10 < 10 ^ (n / 10) := Nat.lt_pow_self (by norm_num) (n / 10)
    calc n / 10 < 10 ^ (n / 10) := this
      _ ≤ 10 ^ (n / 10 + 1) := Nat.pow_le_pow_right (by norm_num) (by omega)

theorem digitChar_spec (d : Nat) (h : d < 10) :
    (digitChar d).isDigit = true ∧ digitVal (digitChar d) = d ∧
      numbers.contains (digitChar d) = true := by
  interval_cases d <;> exact ⟨by decide, by decide, by decide⟩

theorem digitChar_ne_zero (d : Nat) (h1 : 1 ≤ d) (h2 : d < 10) : digitChar d ≠ '0' := by
  interval_cases d <;> decide

theorem digitsVal_append (l : List Char) (c : Char) :
    digitsVal (l ++ [c]) = digitsVal l * 10 + digitVal c := by
  simp [digitsVal, List.foldl_append]

theorem formatUint_ne_nil (n : Nat) : formatUint n ≠ [] := by
  by_cases h : n < 10
  · rw [formatUint_lt n h]; simp
  · rw [formatUint_ge n (by omega)]; simp

theorem formatUint_digits (n : Nat) : ∀ c ∈ formatUint n, c.isDigit = true := by
  induction n using Nat.strong_induction_on with
  | _ n ih =>
    by_cases h : n < 10
    · rw [formatUint_lt n h]
      intro c hc
      simp at hc
      subst hc
      exact (digitChar_spec n h).1
    · rw [formatUint_ge n (by omega)]
      intro c hc
      rcases List.mem_append.mp hc with h1 | h1
      · exact ih (n / 10) (by omega) c h1
      · simp at h1
        subst h1
        exact (digitChar_spec (n % 10) (by omega)).1

theorem formatUint_headI (n : Nat) (h : 1 ≤ n) : (formatUint n).headI ≠ '0' := by
  induction n using Nat.strong_induction_on with
  | _ n ih =>
    by_cases h10 : n < 10
    · rw [formatUint_lt n h10]
      simpa using digitChar_ne_zero n h h10
    · rw [formatUint_ge n (by omega)]
      obtain ⟨x, xs, hx⟩ := List.exists_cons_of_ne_nil (formatUint_ne_nil (n / 10))
      rw [hx]
      have := ih (n / 10) (by omega) (by omega)
      rw [hx] at this
      simpa using this

theorem hasLeadingZeroes_formatUint (n : Nat) : hasLeadingZeroes (formatUint n) = false := by
  by_cases h : n < 10
  · rw [formatUint_lt n h]
    simp [hasLeadingZeroes]
  · have h1 : (formatUint n).headI ≠ '0' := formatUint_headI n (by omega)
    simp [hasLeadingZeroes, h1]

theorem digitsVal_formatUint (n : Nat) : digitsVal (formatUint n) = n := by
  induction n using Nat.strong_induction_on with
  | _ n ih =>
    by_cases h : n < 10
    · rw [formatUint_lt n h]
      have : digitVal (digitChar n) = n := (digitChar_spec n h).2.1
      simp [digitsVal, this]
    · rw [formatUint_ge n (by omega), digitsVal_append]
      rw [ih (n / 10) (by omega)]
      have : digitVal (digitChar (n % 10)) = n % 10 := (digitChar_spec (n % 10) (by omega)).2.1
      rw [this]
      omega

theorem isDigit_mem_numbers (c : Char) (hd : c.isDigit = true) :
    numbers.contains c = true := by
  have hval : 48 ≤ c.toNat ∧ c.toNat ≤ 57 := by
    simp only [Char.isDigit, Bool.and_eq_true, decide_eq_true_eq] at hd
    exact ⟨hd.1, hd.2⟩
  obtain ⟨h48, h57⟩ := hval
  rw [← Char.ofNat_toNat c]
  interval_cases (c.toNat) <;> decide

theorem containsOnly_formatUint (n : Nat) : containsOnly (formatUint n) numbers = true := by
  rw [containsOnly, List.all_eq_true]
  intro c hc
  exact isDigit_mem_numbers c (formatUint_digits n c hc)

theorem parseUint_formatUint (n : Nat) (h : n < 2 ^ 64) :
    parseUint (formatUint n) = some n := by
  rw [parseUint, if_neg (formatUint_ne_nil n)]
  have hall : (formatUint n).all Char.isDigit = true :=
    List.all_eq_true.mpr (formatUint_digits n)
  rw [hall]
  have h' : n < 18446744073709551616 := by omega
  simp [digitsVal_formatUint, h']

theorem parseNum_formatUint (n : Nat) (h : n < 2 ^ 64) :
    parseNum (formatUint n) = some n := by
  rw [parseNum, containsOnly_formatUint, hasLeadingZeroes_formatUint]
  simp [parseUint_formatUint n h]

end semver

/-! ### Section 6c: splitting and indexing lemmas -/

namespace semver

theorem breakAt_no_sep (sep : Char) (s : List Char) (h : ∀ x ∈ s, x ≠ sep) :
    breakAt sep s = none := by
  induction s with
  | nil => rfl
  | cons c rest ih =>
    have hc : c ≠ sep := h c (List.mem_cons_self c rest)
    simp only [breakAt, if_neg hc]
    rw [ih fun x hx => h x (List.mem_cons_of_mem c hx)]
    rfl

theorem breakAt_append (sep : Char) (a b : List Char) (h : ∀ x ∈ a, x ≠ sep) :
    breakAt sep (a ++ sep :: b) = some (a, b) := by
  induction a with
  | nil => simp [breakAt]
  | cons c rest ih =>
    have hc : c ≠ sep := h c (List.mem_cons_self c rest)
    simp only [List.cons_append, breakAt, if_neg hc, List.append_eq]
    rw [ih fun x hx => h x (List.mem_cons_of_mem c hx)]
    rfl

theorem splitN_three (a b c : List Char) (ha : ∀ x ∈ a, x ≠ '.') (hb : ∀ x ∈ b, x ≠ '.') :
    splitN '.' 3 (a ++ '.' :: (b ++ '.' :: c)) = [a, b, c] := by
  show splitN '.' (1 + 2) _ = _
  rw [splitN, breakAt_append '.' a _ ha]
  show _ :: splitN '.' (0 + 2) _ = _
  rw [splitN, breakAt_append '.' b _ hb]
  rfl

theorem indexOf_no_occ (c : Char) (s : List Char) (h : ∀ x ∈ s, x ≠ c) :
    indexOf c s = none := by
  induction s with
  | nil => rfl
  | cons x rest ih =>
    have hx : x ≠ c := h x (List.mem_cons_self x rest)
    simp only [indexOf, if_neg hx]
    rw [ih fun y hy => h y (List.mem_cons_of_mem x hy)]
    rfl

theorem indexOf_shift (c : Char) (a b : List Char) (h : ∀ x ∈ a, x ≠ c) :
    indexOf c (a ++ b) = (indexOf c b).map (· + a.length) := by
  induction a with
  | nil => simp
  | cons x rest ih =>
    have hx : x ≠ c := h x (List.mem_cons_self x rest)
    simp only [List.cons_append, indexOf, if_neg hx, List.append_eq]
    rw [ih fun y hy => h y (List.mem_cons_of_mem x hy)]
    cases indexOf c b
    · simp
    · simp
      omega

theorem indexOf_first (c : Char) (a b : List Char) (h : ∀ x ∈ a, x ≠ c) :
    indexOf c (a ++ c :: b) = some a.length := by
  rw [indexOf_shift c a _ h]
  simp [indexOf]

theorem splitAll_no_sep (sep : Char) (s : List Char) (h : ∀ x ∈ s, x ≠ sep) :
    splitAll sep s = [s] := by
  induction s with
  | nil => rfl
  | cons c rest ih =>
    have hc : c ≠ sep := h c (List.mem_cons_self c rest)
    simp only [splitAll, if_neg hc]
    rw [ih fun x hx => h x (List.mem_cons_of_mem c hx)]
    rfl

theorem splitAll_append_sep (sep : Char) (p t : List Char) (h : ∀ x ∈ p, x ≠ sep) :
    splitAll sep (p ++ sep :: t) = p :: splitAll sep t := by
  induction p with
  | nil => simp [splitAll]
  | cons c rest ih =>
    have hc : c ≠ sep := h c (List.mem_cons_self c rest)
    simp only [List.cons_append, splitAll, if_neg hc, List.append_eq]
    rw [ih fun x hx => h x (List.mem_cons_of_mem c hx)]
    rfl

theorem splitAll_joinSegs (sep : Char) (parts : List (List Char)) (hne : parts ≠ [])
    (h : ∀ p ∈ parts, ∀ x ∈ p, x ≠ sep) :
    splitAll sep (joinSegs sep parts) = parts := by
  induction parts with
  | nil => exact absurd rfl hne
  | cons p ps ih =>
    cases ps with
    | nil =>
      show splitAll sep p = [p]
      exact splitAll_no_sep sep p (h p (List.mem_cons_self p []))
    | cons q qs =>
      show splitAll sep (p ++ sep :: joinSegs sep (q :: qs)) = p :: q :: qs
      rw [splitAll_append_sep sep p _ (h p (List.mem_cons_self p _))]
      rw [ih (by simp) fun r hr x hx => h r (List.mem_cons_of_mem p hr) x hx]

theorem mem_joinSegs (sep : Char) (parts : List (List Char)) (x : Char)
    (hx : x ∈ joinSegs sep parts) : x = sep ∨ ∃ p ∈ parts, x ∈ p := by
  induction parts with
  | nil => simp [joinSegs] at hx
  | cons p ps ih =>
    cases ps with
    | nil =>
      right
      exact ⟨p, List.mem_cons_self p [], hx⟩
    | cons q qs =>
      rw [show joinSegs sep (p :: q :: qs) = p ++ sep :: joinSegs sep (q :: qs) from rfl] at hx
      rcases List.mem_append.mp hx with h1 | h1
      · exact Or.inr ⟨p, List.mem_cons_self p _, h1⟩
      · rcases List.mem_cons.mp h1 with h2 | h2
        · exact Or.inl h2
        · rcases ih h2 with h3 | ⟨r, hr, hxr⟩
          · exact Or.inl h3
          · exact Or.inr ⟨r, List.mem_cons_of_mem p hr, hxr⟩

/-- Characters admissible in prerelease/build identifiers are never `+` or
`.`. -/
theorem mem_alphanum_ne (c : Char) (h : alphanum.contains c = true) :
    c ≠ '+' ∧ c ≠ '.' := by
  constructor
  · intro he; subst he; exact absurd h (by decide)
  · intro he; subst he; exact absurd h (by decide)

/-- Digit characters are never one of the syntax characters. -/
theorem isDigit_ne (c : Char) (h : c.isDigit = true) :
    c ≠ '.' ∧ c ≠ '-' ∧ c ≠ '+' ∧ c ≠ 'v' := by
  refine ⟨?_, ?_, ?_, ?_⟩ <;> (intro he; subst he; exact absurd h (by decide))

theorem formatUint_ne_sepChar (n : Nat) :
    ∀ c ∈ formatUint n, c ≠ '.' ∧ c ≠ '-' ∧ c ≠ '+' ∧ c ≠ 'v' :=
  fun c hc => isDigit_ne c (formatUint_digits n c hc)

end semver

/-! ### Section 6d: parsing a rendered version -/

namespace semver

theorem containsOnly_iff (s set : List Char) :
    containsOnly s set = true ↔ ∀ c ∈ s, c ∈ set := by
  simp [containsOnly, List.all_eq_true, List.contains_eq_any_beq]

theorem mem_numbers_mem_alphanum (c : Char) (h : c ∈ numbers) : c ∈ alphanum := by
  rw [alphanum]
  exact List.mem_append.mpr (Or.inr h)

theorem mem_alphanum_ne' (c : Char) (h : c ∈ alphanum) : c ≠ '+' ∧ c ≠ '.' := by
  constructor
  · intro he; subst he; revert h; decide
  · intro he; subst he; revert h; decide

/-- Characters of a well-formed prerelease identifier's rendering lie in the
`alphanum` alphabet. -/
theorem render_mem_alphanum (p : PRVersion) (h : p.WFb = true) :
    ∀ c ∈ p.render, c ∈ alphanum := by
  intro c hc
  rw [PRVersion.WFb] at h
  by_cases hnum : p.IsNum
  · rw [PRVersion.render, if_pos hnum] at hc
    apply mem_numbers_mem_alphanum
    have := isDigit_mem_numbers c (formatUint_digits p.VersionNum c hc)
    simpa [List.contains_eq_any_beq] using this
  · rw [PRVersion.render, if_neg hnum] at hc
    rw [if_neg hnum] at h
    simp only [Bool.and_eq_true] at h
    exact (containsOnly_iff _ _).mp h.1.2 c hc

theorem render_ne_nil (p : PRVersion) (h : p.WFb = true) : p.render ≠ [] := by
  rw [PRVersion.WFb] at h
  by_cases hnum : p.IsNum
  · rw [PRVersion.render, if_pos hnum]
    exact formatUint_ne_nil p.VersionNum
  · rw [PRVersion.render, if_neg hnum]
    rw [if_neg hnum] at h
    simp only [Bool.and_eq_true, Bool.not_eq_eq_eq_not, Bool.not_true, decide_eq_false_iff_not] at h
    exact h.1.1.2

theorem NewPRVersion_render (p : PRVersion) (h : p.WFb = true) :
    NewPRVersion p.render = some p := by
  obtain ⟨str, num, isnum⟩ := p
  revert h
  cases isnum <;> intro h
  case true =>
    have h' : (decide (str = []) && decide (num < 2 ^ 64)) = true := h
    simp only [Bool.and_eq_true, decide_eq_true_eq] at h'
    obtain ⟨hstr, hnum⟩ := h'
    subst hstr
    show NewPRVersion (formatUint num) = _
    rw [NewPRVersion, if_neg (formatUint_ne_nil num), containsOnly_formatUint,
      if_pos rfl, hasLeadingZeroes_formatUint]
    simp [parseUint_formatUint num hnum]
  case false =>
    have h' : (decide (num = 0) && !decide (str = []) && containsOnly str alphanum &&
        !containsOnly str numbers) = true := h
    simp only [Bool.and_eq_true, Bool.not_eq_eq_eq_not, Bool.not_true,
      decide_eq_true_eq, decide_eq_false_iff_not] at h'
    obtain ⟨⟨⟨hnum0, hne⟩, hal⟩, hnotnum⟩ := h'
    show NewPRVersion str = _
    rw [NewPRVersion, if_neg hne]
    have h1 : containsOnly str numbers = false := hnotnum
    rw [h1, hal]
    simp [hnum0]

theorem mapM_NewPRVersion_render (pre : List PRVersion) (h : pre.all PRVersion.WFb = true) :
    (pre.map PRVersion.render).mapM NewPRVersion = some pre := by
  induction pre with
  | nil => rfl
  | cons p ps ih =>
    rw [List.all_cons, Bool.and_eq_true] at h
    simp only [List.map_cons, List.mapM_cons, NewPRVersion_render p h.1, ih h.2]
    rfl

theorem buildToken_valid (b : List Char) (hne : b ≠ []) (hal : containsOnly b alphanum = true) :
    buildToken b = some b := by
  rw [buildToken, if_neg hne]
  simp [hal]

theorem mapM_buildToken (bs : List (List Char))
    (h : bs.all (fun b => !decide (b = []) && containsOnly b alphanum) = true) :
    bs.mapM buildToken = some bs := by
  induction bs with
  | nil => rfl
  | cons b rest ih =>
    rw [List.all_cons, Bool.and_eq_true] at h
    have h1 := h.1
    simp only [Bool.and_eq_true, Bool.not_eq_eq_eq_not, Bool.not_true,
      decide_eq_false_iff_not] at h1
    simp only [List.mapM_cons, buildToken_valid b h1.1 h1.2, ih h.2]
    rfl

end semver

namespace semver

/-- Parsing a rendered well-formed version recovers the version exactly
(the `v`-stripping step is handled separately in `Parse`). -/
theorem parseCore_render (v : Version) (h : v.WFb = true) :
    parseCore (Version.render v) = some v := by
  obtain ⟨M, mi, P, pre, build⟩ := v
  have h' : (decide (M < 2 ^ 64) && decide (mi < 2 ^ 64) && decide (P < 2 ^ 64) &&
      pre.all PRVersion.WFb &&
      build.all (fun b => !decide (b = []) && containsOnly b alphanum)) = true := h
  simp only [Bool.and_eq_true, decide_eq_true_eq] at h'
  obtain ⟨⟨⟨⟨hM, hmi⟩, hP⟩, hpre⟩, hbuild⟩ := h'
  have hMd : ∀ x ∈ formatUint M, x ≠ '.' := fun x hx => (formatUint_ne_sepChar M x hx).1
  have hmid : ∀ x ∈ formatUint mi, x ≠ '.' := fun x hx => (formatUint_ne_sepChar mi x hx).1
  have hPdash : ∀ x ∈ formatUint P, x ≠ '-' := fun x hx => (formatUint_ne_sepChar P x hx).2.1
  have hPplus : ∀ x ∈ formatUint P, x ≠ '+' := fun x hx => (formatUint_ne_sepChar P x hx).2.2.1
  have hpreW : ∀ p ∈ pre, p.WFb = true := List.all_eq_true.mp hpre
  have hbuildW : ∀ b ∈ build, b ≠ [] ∧ containsOnly b alphanum = true := by
    intro b hb
    have := List.all_eq_true.mp hbuild b hb
    simp only [Bool.and_eq_true, Bool.not_eq_eq_eq_not, Bool.not_true,
      decide_eq_false_iff_not] at this
    exact this
  have hprechars : ∀ c ∈ joinSegs '.' (pre.map PRVersion.render), c = '.' ∨ c ∈ alphanum := by
    intro c hc
    rcases mem_joinSegs '.' _ c hc with h1 | ⟨q, hq, hcq⟩
    · exact Or.inl h1
    · obtain ⟨p, hp, rfl⟩ := List.mem_map.mp hq
      exact Or.inr (render_mem_alphanum p (hpreW p hp) c hcq)
  have hpreplus : ∀ c ∈ joinSegs '.' (pre.map PRVersion.render), c ≠ '+' := by
    intro c hc
    rcases hprechars c hc with h1 | h1
    · subst h1; decide
    · exact (mem_alphanum_ne' c h1).1
  have hprenodot : ∀ p ∈ pre.map PRVersion.render, ∀ x ∈ p, x ≠ '.' := by
    intro p hp x hx
    obtain ⟨q, hq, rfl⟩ := List.mem_map.mp hp
    exact (mem_alphanum_ne' x (render_mem_alphanum q (hpreW q hq) x hx)).2
  have hbuildnodot : ∀ b ∈ build, ∀ x ∈ b, x ≠ '.' := by
    intro b hb x hx
    exact (mem_alphanum_ne' x ((containsOnly_iff _ _).mp (hbuildW b hb).2 x hx)).2
  rcases pre with _ | ⟨p0, ps⟩
  · rcases build with _ | ⟨b0, bs⟩
    · -- no prerelease, no build
      have hrender : Version.render ⟨M, mi, P, [], []⟩ =
          formatUint M ++ '.' :: (formatUint mi ++ '.' :: formatUint P) := by
        show formatUint M ++ '.' :: (formatUint mi ++ '.' :: (formatUint P ++ [] ++ [])) = _
        simp
      have hne : Version.render ⟨M, mi, P, [], []⟩ ≠ [] := by
        rw [hrender]
        simp [formatUint_ne_nil]
      have hsplit : splitN '.' 3 (Version.render ⟨M, mi, P, [], []⟩) =
          [formatUint M, formatUint mi, formatUint P] := by
        rw [hrender]
        exact splitN_three _ _ _ hMd hmid
      have h1 : indexOf '-' (formatUint P) = none := indexOf_no_occ _ _ hPdash
      have h2 : indexOf '+' (formatUint P) = none := indexOf_no_occ _ _ hPplus
      have hsub : subVersionIndex (formatUint P) =
          ((formatUint P).length, none, none) := by
        rw [subVersionIndex, h1, h2]
      rw [parseCore, if_neg hne, hsplit]
      simp only [hsub, List.take_length, Option.bind_eq_bind, Option.some_bind,
        parseNum_formatUint M hM, parseNum_formatUint mi hmi, parseNum_formatUint P hP]
      rfl
    · -- build only
      have hbjplus : ∀ c ∈ joinSegs '.' (b0 :: bs), c ≠ '+'  := by
        intro c hc
        rcases mem_joinSegs '.' _ c hc with h1 | ⟨q, hq, hcq⟩
        · subst h1; decide
        · exact (mem_alphanum_ne' c
            ((containsOnly_iff _ _).mp (hbuildW q hq).2 c hcq)).1
      have hrender : Version.render ⟨M, mi, P, [], b0 :: bs⟩ =
          formatUint M ++ '.' :: (formatUint mi ++ '.' ::
            (formatUint P ++ '+' :: joinSegs '.' (b0 :: bs))) := by
        show formatUint M ++ '.' :: (formatUint mi ++ '.' ::
          (formatUint P ++ [] ++ '+' :: joinSegs '.' (b0 :: bs))) = _
        simp
      have hne : Version.render ⟨M, mi, P, [], b0 :: bs⟩ ≠ [] := by
        rw [hrender]
        simp [formatUint_ne_nil]
      have hsplit : splitN '.' 3 (Version.render ⟨M, mi, P, [], b0 :: bs⟩) =
          [formatUint M, formatUint mi,
            formatUint P ++ '+' :: joinSegs '.' (b0 :: bs)] := by
        rw [hrender]
        exact splitN_three _ _ _ hMd hmid
      have h2 : indexOf '+' (formatUint P ++ '+' :: joinSegs '.' (b0 :: bs)) =
          some (formatUint P).length := indexOf_first _ _ _ hPplus
      have h1 : indexOf '-' (formatUint P ++ '+' :: joinSegs '.' (b0 :: bs)) =
          (indexOf '-' ('+' :: joinSegs '.' (b0 :: bs))).map (· + (formatUint P).length) :=
        indexOf_shift _ _ _ hPdash
      have hsub : subVersionIndex (formatUint P ++ '+' :: joinSegs '.' (b0 :: bs)) =
          ((formatUint P).length, none, some (formatUint P).length) := by
        rw [subVersionIndex, h1, h2]
        rw [show indexOf '-' ('+' :: joinSegs '.' (b0 :: bs)) =
          (indexOf '-' (joinSegs '.' (b0 :: bs))).map (· + 1) from by
            simp [indexOf, show ('+' : Char) ≠ '-' from by decide]]
        cases hIdx : indexOf '-' (joinSegs '.' (b0 :: bs)) with
        | none => rfl
        | some k =>
          simp only [Option.map_some']
          rw [if_pos (by omega)]
      have htake : (formatUint P ++ '+' :: joinSegs '.' (b0 :: bs)).take
          (formatUint P).length = formatUint P := List.take_left _ _
      have hdrop : (formatUint P ++ '+' :: joinSegs '.' (b0 :: bs)).drop
          ((formatUint P).length + 1) = joinSegs '.' (b0 :: bs) := by
        rw [← List.drop_drop, List.drop_left]
        rfl
      have hsplitbj : splitAll '.' (joinSegs '.' (b0 :: bs)) = b0 :: bs :=
        splitAll_joinSegs '.' _ (by simp) hbuildnodot
      rw [parseCore, if_neg hne, hsplit]
      simp only [hsub, htake, hdrop, hsplitbj, Option.bind_eq_bind, Option.some_bind,
        parseNum_formatUint M hM, parseNum_formatUint mi hmi, parseNum_formatUint P hP,
        mapM_buildToken (b0 :: bs) hbuild]
      rfl
  · rcases build with _ | ⟨b0, bs⟩
    · -- prerelease only
      have hrender : Version.render ⟨M, mi, P, p0 :: ps, []⟩ =
          formatUint M ++ '.' :: (formatUint mi ++ '.' ::
            (formatUint P ++ '-' :: joinSegs '.' ((p0 :: ps).map PRVersion.render))) := by
        show formatUint M ++ '.' :: (formatUint mi ++ '.' ::
          (formatUint P ++ '-' :: joinSegs '.' ((p0 :: ps).map PRVersion.render) ++ [])) = _
        simp
      have hne : Version.render ⟨M, mi, P, p0 :: ps, []⟩ ≠ [] := by
        rw [hrender]
        simp [formatUint_ne_nil]
      have hsplit : splitN '.' 3 (Version.render ⟨M, mi, P, p0 :: ps, []⟩) =
          [formatUint M, formatUint mi,
            formatUint P ++ '-' :: joinSegs '.' ((p0 :: ps).map PRVersion.render)] := by
        rw [hrender]
        exact splitN_three _ _ _ hMd hmid
      have h1 : indexOf '-'
          (formatUint P ++ '-' :: joinSegs '.' ((p0 :: ps).map PRVersion.render)) =
          some (formatUint P).length := indexOf_first _ _ _ hPdash
      have h2 : indexOf '+'
          (formatUint P ++ '-' :: joinSegs '.' ((p0 :: ps).map PRVersion.render)) = none := by
        apply indexOf_no_occ
        intro x hx
        rcases List.mem_append.mp hx with h3 | h3
        · exact hPplus x h3
        · rcases List.mem_cons.mp h3 with h4 | h4
          · subst h4; decide
          · exact hpreplus x h4
      have hsub : subVersionIndex
          (formatUint P ++ '-' :: joinSegs '.' ((p0 :: ps).map PRVersion.render)) =
          ((formatUint P).length, some (formatUint P).length, none) := by
        rw [subVersionIndex, h1, h2]
      have htake : (formatUint P ++ '-' :: joinSegs '.' ((p0 :: ps).map PRVersion.render)).take
          (formatUint P).length = formatUint P := List.take_left _ _
      have hdrop : (formatUint P ++ '-' :: joinSegs '.' ((p0 :: ps).map PRVersion.render)).drop
          ((formatUint P).length + 1) = joinSegs '.' ((p0 :: ps).map PRVersion.render) := by
        rw [← List.drop_drop, List.drop_left]
        rfl
      have hsplitpj : splitAll '.' (joinSegs '.' ((p0 :: ps).map PRVersion.render)) =
          (p0 :: ps).map PRVersion.render :=
        splitAll_joinSegs '.' _ (by simp) hprenodot
      rw [parseCore, if_neg hne, hsplit]
      simp only [hsub, htake, hdrop, hsplitpj, Option.bind_eq_bind, Option.some_bind,
        parseNum_formatUint M hM, parseNum_formatUint mi hmi, parseNum_formatUint P hP,
        mapM_NewPRVersion_render (p0 :: ps) hpre]
      rfl
    · -- prerelease and build
      have hrender : Version.render ⟨M, mi, P, p0 :: ps, b0 :: bs⟩ =
          formatUint M ++ '.' :: (formatUint mi ++ '.' ::
            (formatUint P ++ '-' :: (joinSegs '.' ((p0 :: ps).map PRVersion.render) ++
              '+' :: joinSegs '.' (b0 :: bs)))) := by
        show formatUint M ++ '.' :: (formatUint mi ++ '.' ::
          (formatUint P ++ '-' :: joinSegs '.' ((p0 :: ps).map PRVersion.render) ++
            '+' :: joinSegs '.' (b0 :: bs))) = _
        simp
      have hne : Version.render ⟨M, mi, P, p0 :: ps, b0 :: bs⟩ ≠ [] := by
        rw [hrender]
        simp [formatUint_ne_nil]
      have hsplit : splitN '.' 3 (Version.render ⟨M, mi, P, p0 :: ps, b0 :: bs⟩) =
          [formatUint M, formatUint mi,
            formatUint P ++ '-' :: (joinSegs '.' ((p0 :: ps).map PRVersion.render) ++
              '+' :: joinSegs '.' (b0 :: bs))] := by
        rw [hrender]
        exact splitN_three _ _ _ hMd hmid
      have h1 : indexOf '-'
          (formatUint P ++ '-' :: (joinSegs '.' ((p0 :: ps).map PRVersion.render) ++
            '+' :: joinSegs '.' (b0 :: bs))) = some (formatUint P).length :=
        indexOf_first _ _ _ hPdash
      have hshape : formatUint P ++ '-' :: (joinSegs '.' ((p0 :: ps).map PRVersion.render) ++
            '+' :: joinSegs '.' (b0 :: bs)) =
          (formatUint P ++ '-' :: joinSegs '.' ((p0 :: ps).map PRVersion.render)) ++
            '+' :: joinSegs '.' (b0 :: bs) := by
        simp
      have h2 : indexOf '+'
          (formatUint P ++ '-' :: (joinSegs '.' ((p0 :: ps).map PRVersion.render) ++
            '+' :: joinSegs '.' (b0 :: bs))) =
          some ((formatUint P).length + 1 +
            (joinSegs '.' ((p0 :: ps).map PRVersion.render)).length) := by
        rw [hshape, indexOf_first _ _ _ (by
          intro x hx
          rcases List.mem_append.mp hx with h3 | h3
          · exact hPplus x h3
          · rcases List.mem_cons.mp h3 with h4 | h4
            · subst h4; decide
            · exact hpreplus x h4)]
        congr 1
        simp
        omega
      have hsub : subVersionIndex
          (formatUint P ++ '-' :: (joinSegs '.' ((p0 :: ps).map PRVersion.render) ++
            '+' :: joinSegs '.' (b0 :: bs))) =
          ((formatUint P).length, some (formatUint P).length,
            some ((formatUint P).length + 1 +
              (joinSegs '.' ((p0 :: ps).map PRVersion.render)).length)) := by
        rw [subVersionIndex, h1, h2]
        dsimp only
        rw [if_neg (by omega)]
      have htake : (formatUint P ++ '-' :: (joinSegs '.' ((p0 :: ps).map PRVersion.render) ++
          '+' :: joinSegs '.' (b0 :: bs))).take (formatUint P).length = formatUint P :=
        List.take_left _ _
      have hdrop1 : (formatUint P ++ '-' :: (joinSegs '.' ((p0 :: ps).map PRVersion.render) ++
          '+' :: joinSegs '.' (b0 :: bs))).drop ((formatUint P).length + 1) =
          joinSegs '.' ((p0 :: ps).map PRVersion.render) ++ '+' :: joinSegs '.' (b0 :: bs) := by
        rw [← List.drop_drop, List.drop_left]
        rfl
      have htake2 : (joinSegs '.' ((p0 :: ps).map PRVersion.render) ++
          '+' :: joinSegs '.' (b0 :: bs)).take
            ((formatUint P).length + 1 +
              (joinSegs '.' ((p0 :: ps).map PRVersion.render)).length -
              ((formatUint P).length + 1)) =
          joinSegs '.' ((p0 :: ps).map PRVersion.render) := by
        rw [show (formatUint P).length + 1 +
            (joinSegs '.' ((p0 :: ps).map PRVersion.render)).length -
            ((formatUint P).length + 1) =
            (joinSegs '.' ((p0 :: ps).map PRVersion.render)).length from by omega]
        exact List.take_left _ _
      have hdrop2 : (formatUint P ++ '-' :: (joinSegs '.' ((p0 :: ps).map PRVersion.render) ++
          '+' :: joinSegs '.' (b0 :: bs))).drop
            ((formatUint P).length + 1 +
              (joinSegs '.' ((p0 :: ps).map PRVersion.render)).length + 1) =
          joinSegs '.' (b0 :: bs) := by
        rw [hshape]
        rw [show (formatUint P).length + 1 +
            (joinSegs '.' ((p0 :: ps).map PRVersion.render)).length + 1 =
            (formatUint P ++ '-' :: joinSegs '.' ((p0 :: ps).map PRVersion.render)).length
              + 1 from by simp; omega]
        rw [← List.drop_drop, List.drop_left]
        rfl
      have hsplitpj : splitAll '.' (joinSegs '.' ((p0 :: ps).map PRVersion.render)) =
          (p0 :: ps).map PRVersion.render :=
        splitAll_joinSegs '.' _ (by simp) hprenodot
      have hsplitbj : splitAll '.' (joinSegs '.' (b0 :: bs)) = b0 :: bs :=
        splitAll_joinSegs '.' _ (by simp) hbuildnodot
      rw [parseCore, if_neg hne, hsplit]
      simp only [hsub, htake, hdrop1, htake2, hdrop2, hsplitpj, hsplitbj,
        Option.bind_eq_bind, Option.some_bind,
        parseNum_formatUint M hM, parseNum_formatUint mi hmi, parseNum_formatUint P hP,
        mapM_NewPRVersion_render (p0 :: ps) hpre, mapM_buildToken (b0 :: bs) hbuild]
      rfl

end semver

namespace semver

theorem removeFirstV_cons_v (s : List Char) : removeFirstV ('v' :: s) = s := by
  simp [removeFirstV]

theorem removeFirstV_no_v (s : List Char) (h : 'v' ∉ s) : removeFirstV s = s := by
  induction s with
  | nil => rfl
  | cons c rest ih =>
    have hc : c ≠ 'v' := fun he => h (he ▸ List.mem_cons_self c rest)
    rw [removeFirstV, if_neg hc, ih fun hm => h (List.mem_cons_of_mem c hm)]

/-- **C3, counterexample.** `Parse` removes the *first* `v` anywhere in the
string, not just a leading one: the canonical version string `1.0.0-v1`
(prerelease identifier `v1`) parses as `1.0.0-1` and does not round-trip. -/
theorem c3_roundtrip_fails :
    (Parse (chars "1.0.0-v1")).map Version.render = some (chars "1.0.0-1") ∧
      (Parse (chars "1.0.0-v1")).map Version.render ≠ some (chars "1.0.0-v1") := by
  constructor
  · rfl
  · decide

/-- **C3, amended.** Rendering is a right inverse of parsing for canonical
strings that either carry the optional leading `v` or contain no `v` at all:
for every well-formed version value, `v`-prefixed renderings always
round-trip, and un-prefixed renderings round-trip when no `v` occurs in them
(the first `v` anywhere in the input is deleted by `Parse`, which breaks
round-tripping exactly when an identifier contains `v` and no prefix is
present, see `c3_roundtrip_fails`). -/
theorem c3_roundtrip (v : Version) (h : v.WFb = true) :
    ((Parse ('v' :: v.render)).map Version.render = some v.render) ∧
      ('v' ∉ v.render → (Parse v.render).map Version.render = some v.render) := by
  constructor
  · rw [Parse, removeFirstV_cons_v, parseCore_render v h]
    rfl
  · intro hv
    rw [Parse, removeFirstV_no_v _ hv, parseCore_render v h]
    rfl

/-- Witness for `c3_roundtrip` at the concrete version `1.2.3-rc.4+b1`. -/
theorem c3_roundtrip_witness :
    (Parse ('v' :: Version.render ⟨1, 2, 3, [⟨chars "rc", 0, false⟩, ⟨[], 4, true⟩],
        [chars "b1"]⟩)).map Version.render =
      some (Version.render ⟨1, 2, 3, [⟨chars "rc", 0, false⟩, ⟨[], 4, true⟩],
        [chars "b1"]⟩) :=
  (c3_roundtrip ⟨1, 2, 3, [⟨chars "rc", 0, false⟩, ⟨[], 4, true⟩], [chars "b1"]⟩
    (by decide)).1

end semver

/-! ### Section 6e: the comparison is a total order -/

namespace semver

/-- Laws making a three-way comparison a total preorder: range, antisymmetry,
left congruence at ties, and transitivity of strict inequality. -/
def IsCmp {α : Type _} (c : α → α → Int) : Prop :=
  (∀ a b, c a b = -1 ∨ c a b = 0 ∨ c a b = 1) ∧
  (∀ a b, c b a = - c a b) ∧
  (∀ a b d, c a b = 0 → c a d = c b d) ∧
  (∀ a b d, c a b = -1 → c b d = -1 → c a d = -1)

theorem IsCmp.congr_r {α : Type _} {c : α → α → Int} (hc : IsCmp c)
    {a b : α} (h : c a b = 0) (d : α) : c d a = c d b := by
  have h1 := hc.2.1 a d
  have h2 := hc.2.1 b d
  rw [h1, h2, hc.2.2.1 a b d h]

theorem IsCmp.le_trans {α : Type _} {c : α → α → Int} (hc : IsCmp c)
    {a b d : α} (h1 : c a b ≤ 0) (h2 : c b d ≤ 0) : c a d ≤ 0 := by
  rcases hc.1 a b with hab | hab | hab
  · rcases hc.1 b d with hbd | hbd | hbd
    · rw [hc.2.2.2 a b d hab hbd]; omega
    · rw [hc.congr_r hbd a] at *
      omega
    · rw [hbd] at h2; omega
  · rw [hc.2.2.1 a b d hab]; exact h2
  · rw [hab] at h1; omega

/-- Composition: compare by `c₁`, break ties with `c₂`. -/
def thenCmp {α : Type _} (c₁ c₂ : α → α → Int) : α → α → Int :=
  fun a b => if c₁ a b = 0 then c₂ a b else c₁ a b

/-- Comparison through a projection. -/
def onProj {α β : Type _} (c : β → β → Int) (f : α → β) : α → α → Int :=
  fun a b => c (f a) (f b)

theorem IsCmp.onProj {α β : Type _} {c : β → β → Int} (hc : IsCmp c) (f : α → β) :
    IsCmp (onProj c f) := by
  refine ⟨fun a b => hc.1 (f a) (f b), fun a b => hc.2.1 (f a) (f b),
    fun a b d h => hc.2.2.1 (f a) (f b) (f d) h,
    fun a b d h1 h2 => hc.2.2.2 (f a) (f b) (f d) h1 h2⟩

theorem IsCmp.thenCmp {α : Type _} {c₁ c₂ : α → α → Int} (h1 : IsCmp c₁) (h2 : IsCmp c₂) :
    IsCmp (thenCmp c₁ c₂) := by
  refine ⟨?_, ?_, ?_, ?_⟩
  · intro a b
    rw [semver.thenCmp]
    split
    · exact h2.1 a b
    · exact h1.1 a b
  · intro a b
    rw [semver.thenCmp, semver.thenCmp]
    by_cases hab : c₁ a b = 0
    · have hba : c₁ b a = 0 := by rw [h1.2.1 a b, hab]; rfl
      rw [if_pos hab, if_pos hba]
      exact h2.2.1 a b
    · have hba : c₁ b a ≠ 0 := by
        rw [h1.2.1 a b]
        omega
      rw [if_neg hab, if_neg hba]
      exact h1.2.1 a b
  · intro a b d h
    have hab : c₁ a b = 0 := by
      rw [semver.thenCmp] at h
      by_contra hcon
      rw [if_neg hcon] at h
      exact hcon h
    have hab2 : c₂ a b = 0 := by
      rw [semver.thenCmp, if_pos hab] at h
      exact h
    rw [semver.thenCmp, semver.thenCmp, h1.2.2.1 a b d hab, h2.2.2.1 a b d hab2]
  · intro a b d hab hbd
    rw [semver.thenCmp] at *
    by_cases h1ab : c₁ a b = 0
    · by_cases h1bd : c₁ b d = 0
      · rw [if_pos h1ab] at hab
        rw [if_pos h1bd] at hbd
        rw [h1.2.2.1 a b d h1ab, if_pos h1bd]
        exact h2.2.2.2 a b d hab hbd
      · rw [if_neg h1bd] at hbd
        rw [h1.2.2.1 a b d h1ab, if_neg (by rw [hbd]; omega), hbd]
    · by_cases h1bd : c₁ b d = 0
      · rw [if_neg h1ab] at hab
        rw [← h1.congr_r h1bd a, if_neg h1ab, hab]
      · rw [if_neg h1ab] at hab
        rw [if_neg h1bd] at hbd
        have := h1.2.2.2 a b d hab hbd
        rw [if_neg (by rw [this]; omega), this]

/-- Three-way comparison on `Nat` in the source's style. -/
def natCmp (a b : Nat) : Int :=
  if a = b then 0 else if a > b then 1 else -1


theorem natCmp_range (a b : Nat) : natCmp a b = -1 ∨ natCmp a b = 0 ∨ natCmp a b = 1 := by
  rw [natCmp]; split_ifs <;> simp

theorem natCmp_antisym (a b : Nat) : natCmp b a = - natCmp a b := by
  rw [natCmp, natCmp]; split_ifs <;> omega

theorem natCmp_eq_zero (a b : Nat) (h : natCmp a b = 0) : a = b := by
  rw [natCmp] at h
  split_ifs at h <;> omega

theorem natCmp_isCmp : IsCmp natCmp := by
  refine ⟨natCmp_range, natCmp_antisym, ?_, ?_⟩
  · intro a b d h
    rw [natCmp_eq_zero a b h]
  · intro a b d hab hbd
    rw [natCmp] at *
    split_ifs at * <;> omega

theorem lexCmp_eq_zero (a b : List Char) : lexCmp a b = 0 ↔ a = b := by
  induction a generalizing b with
  | nil => cases b <;> simp [lexCmp]
  | cons x xs ih =>
    cases b with
    | nil => simp [lexCmp]
    | cons y ys =>
      rw [lexCmp]
      by_cases hxy : x = y
      · subst hxy
        simp [ih]
      · rw [if_neg hxy]
        split <;> simp [hxy]

theorem lexCmp_range (a b : List Char) : lexCmp a b = -1 ∨ lexCmp a b = 0 ∨ lexCmp a b = 1 := by
  induction a generalizing b with
  | nil => cases b <;> simp [lexCmp]
  | cons x xs ih =>
    cases b with
    | nil => simp [lexCmp]
    | cons y ys =>
      rw [lexCmp]
      by_cases hxy : x = y
      · rw [if_pos hxy]
        exact ih ys
      · rw [if_neg hxy]
        split
        · simp
        · simp

theorem lexCmp_antisym (a b : List Char) : lexCmp b a = - lexCmp a b := by
  induction a generalizing b with
  | nil => cases b <;> simp [lexCmp]
  | cons x xs ih =>
    cases b with
    | nil => simp [lexCmp]
    | cons y ys =>
      rw [lexCmp, lexCmp]
      by_cases hxy : x = y
      · subst hxy
        rw [if_pos rfl, if_pos rfl]
        exact ih ys
      · have hyx : y ≠ x := fun h => hxy h.symm
        rw [if_neg hxy, if_neg hyx]
        have hne : x.toNat ≠ y.toNat := fun h =>
          hxy (Char.eq_of_val_eq (UInt32.toNat.inj h))
        by_cases hlt : x.toNat < y.toNat
        · rw [if_pos hlt, if_neg (show ¬ y.toNat < x.toNat by omega)]
          decide
        · rw [if_neg hlt, if_pos (show y.toNat < x.toNat by omega)]

theorem lexCmp_transNeg (a : List Char) : ∀ b d, lexCmp a b = -1 → lexCmp b d = -1 →
    lexCmp a d = -1 := by
  induction a with
  | nil =>
    intro b d hab hbd
    cases b with
    | nil => simp [lexCmp] at hab
    | cons y ys =>
      cases d with
      | nil => simp [lexCmp] at hbd
      | cons z zs => simp [lexCmp]
  | cons x xs ih =>
    intro b d hab hbd
    cases b with
    | nil => simp [lexCmp] at hab
    | cons y ys =>
      cases d with
      | nil => simp [lexCmp] at hbd
      | cons z zs =>
        rw [lexCmp] at hab hbd ⊢
        by_cases hxy : x = y
        · subst hxy
          rw [if_pos rfl] at hab
          by_cases hxz : x = z
          · subst hxz
            rw [if_pos rfl] at hbd ⊢
            exact ih ys zs hab hbd
          · rw [if_neg hxz] at hbd ⊢
            exact hbd
        · rw [if_neg hxy] at hab
          have hab' : x.toNat < y.toNat := by
            by_contra hcon
            rw [if_neg hcon] at hab
            exact absurd hab (by decide)
          by_cases hyz : y = z
          · subst hyz
            rw [if_neg hxy, if_pos hab']
          · rw [if_neg hyz] at hbd
            have hbd' : y.toNat < z.toNat := by
              by_contra hcon
              rw [if_neg hcon] at hbd
              exact absurd hbd (by decide)
            have hxz : x ≠ z := by
              intro he
              subst he
              omega
            rw [if_neg hxz, if_pos (by omega)]

theorem lexCmp_isCmp : IsCmp lexCmp := by
  refine ⟨lexCmp_range, lexCmp_antisym, ?_, fun a b d => lexCmp_transNeg a b d⟩
  intro a b d h
  rw [lexCmp_eq_zero] at h
  subst h
  rfl

/-- The three possible outcomes of comparing two unequal strings. -/
theorem lex_cases (a b : List Char) (hne : a ≠ b) :
    (lexCmp a b = -1 ∧ lexCmp b a = 1) ∨ (lexCmp a b = 1 ∧ lexCmp b a = -1) := by
  have hz : lexCmp a b ≠ 0 := fun h => hne ((lexCmp_eq_zero a b).mp h)
  have hanti := lexCmp_antisym a b
  rcases lexCmp_range a b with h | h | h
  · exact Or.inl ⟨h, by omega⟩
  · exact absurd h hz
  · exact Or.inr ⟨h, by omega⟩

theorem pr_num_num (sa sb : List Char) (na nb : Nat) :
    PRVersion.compare ⟨sa, na, true⟩ ⟨sb, nb, true⟩ = natCmp na nb := by
  rw [PRVersion.compare, natCmp]
  simp

theorem pr_num_alpha (sa sb : List Char) (na nb : Nat) :
    PRVersion.compare ⟨sa, na, true⟩ ⟨sb, nb, false⟩ = -1 := by
  rw [PRVersion.compare]
  simp

theorem pr_alpha_num (sa sb : List Char) (na nb : Nat) :
    PRVersion.compare ⟨sa, na, false⟩ ⟨sb, nb, true⟩ = 1 := by
  rw [PRVersion.compare]
  simp

theorem pr_alpha_alpha (sa sb : List Char) (na nb : Nat) :
    PRVersion.compare ⟨sa, na, false⟩ ⟨sb, nb, false⟩ =
      (if sa = sb then 0 else if strGT sa sb then 1 else -1) := by
  rw [PRVersion.compare]
  simp

theorem prCompare_isCmp : IsCmp PRVersion.compare := by
  refine ⟨?_, ?_, ?_, ?_⟩
  · intro a b
    obtain ⟨sa, na, ia⟩ := a
    obtain ⟨sb, nb, ib⟩ := b
    cases ia <;> cases ib
    · rw [pr_alpha_alpha]
      split_ifs <;> simp
    · rw [pr_alpha_num]
      simp
    · rw [pr_num_alpha]
      simp
    · rw [pr_num_num]
      exact natCmp_range na nb
  · intro a b
    obtain ⟨sa, na, ia⟩ := a
    obtain ⟨sb, nb, ib⟩ := b
    cases ia <;> cases ib
    · rw [pr_alpha_alpha, pr_alpha_alpha]
      by_cases he : sa = sb
      · rw [if_pos he, if_pos he.symm]
        decide
      · have he' : sb ≠ sa := fun h => he h.symm
        rw [if_neg he, if_neg he']
        rcases lex_cases sa sb he with ⟨h1, h2⟩ | ⟨h1, h2⟩
        · rw [if_pos (show strGT sb sa from h2),
            if_neg (show ¬ strGT sa sb from by rw [strGT]; omega)]
          decide
        · rw [if_neg (show ¬ strGT sb sa from by rw [strGT]; omega),
            if_pos (show strGT sa sb from h1)]
    · rw [pr_alpha_num, pr_num_alpha]
    · rw [pr_num_alpha, pr_alpha_num]
      decide
    · rw [pr_num_num, pr_num_num]
      exact natCmp_antisym na nb
  · intro a b d h
    obtain ⟨sa, na, ia⟩ := a
    obtain ⟨sb, nb, ib⟩ := b
    obtain ⟨sd, nd, id'⟩ := d
    cases ia <;> cases ib
    · rw [pr_alpha_alpha] at h
      have he : sa = sb := by
        by_contra hcon
        rw [if_neg hcon] at h
        split_ifs at h
        all_goals omega
      subst he
      cases id'
      · rw [pr_alpha_alpha, pr_alpha_alpha]
      · rw [pr_alpha_num, pr_alpha_num]
    · rw [pr_alpha_num] at h
      omega
    · rw [pr_num_alpha] at h
      omega
    · rw [pr_num_num] at h
      have he : na = nb := natCmp_eq_zero na nb h
      subst he
      cases id'
      · rw [pr_num_alpha, pr_num_alpha]
      · rw [pr_num_num, pr_num_num]
  · intro a b d hab hbd
    obtain ⟨sa, na, ia⟩ := a
    obtain ⟨sb, nb, ib⟩ := b
    obtain ⟨sd, nd, id'⟩ := d
    cases ia <;> cases ib <;> cases id'
    · -- all alphanumeric
      rw [pr_alpha_alpha] at hab hbd
      rw [pr_alpha_alpha]
      have h1 : lexCmp sa sb = -1 := by
        by_cases he : sa = sb
        · rw [if_pos he] at hab
          omega
        · rw [if_neg he] at hab
          rcases lex_cases sa sb he with ⟨x1, _⟩ | ⟨x1, _⟩
          · exact x1
          · rw [if_pos (show strGT sa sb from x1)] at hab
            omega
      have h2 : lexCmp sb sd = -1 := by
        by_cases he : sb = sd
        · rw [if_pos he] at hbd
          omega
        · rw [if_neg he] at hbd
          rcases lex_cases sb sd he with ⟨x1, _⟩ | ⟨x1, _⟩
          · exact x1
          · rw [if_pos (show strGT sb sd from x1)] at hbd
            omega
      have h3 := lexCmp_transNeg sa sb sd h1 h2
      have hne : sa ≠ sd := by
        intro he
        rw [← lexCmp_eq_zero sa sd] at he
        omega
      rw [if_neg hne, if_neg (show ¬ strGT sa sd from by rw [strGT]; omega)]
    · rw [pr_alpha_num] at hbd
      omega
    · rw [pr_alpha_num] at hab
      omega
    · rw [pr_alpha_num] at hab
      omega
    · rw [pr_num_alpha]
    · rw [pr_alpha_num] at hbd
      omega
    · rw [pr_num_alpha]
    · rw [pr_num_num] at hab hbd
      rw [pr_num_num]
      exact natCmp_isCmp.2.2.2 na nb nd hab hbd

end semver

namespace semver

theorem preLoop_range : ∀ a b : List PRVersion,
    preLoop a b = -1 ∨ preLoop a b = 0 ∨ preLoop a b = 1 := by
  intro a
  induction a with
  | nil => intro b; cases b <;> simp [preLoop]
  | cons x xs ih =>
    intro b
    cases b with
    | nil => simp [preLoop]
    | cons y ys =>
      rw [preLoop]
      split
      · exact ih ys
      · exact prCompare_isCmp.1 x y

theorem preLoop_antisym : ∀ a b : List PRVersion, preLoop b a = - preLoop a b := by
  intro a
  induction a with
  | nil => intro b; cases b <;> simp [preLoop]
  | cons x xs ih =>
    intro b
    cases b with
    | nil => simp [preLoop]
    | cons y ys =>
      rw [preLoop, preLoop]
      by_cases hc : PRVersion.compare x y = 0
      · have hc' : PRVersion.compare y x = 0 := by
          rw [prCompare_isCmp.2.1 x y, hc]
          rfl
        rw [if_pos hc, if_pos hc']
        exact ih ys
      · have hc' : PRVersion.compare y x ≠ 0 := by
          rw [prCompare_isCmp.2.1 x y]
          omega
        rw [if_neg hc, if_neg hc']
        exact prCompare_isCmp.2.1 x y

theorem preLoop_congr : ∀ a b d : List PRVersion, preLoop a b = 0 →
    preLoop a d = preLoop b d := by
  intro a
  induction a with
  | nil =>
    intro b d h
    cases b with
    | nil => rfl
    | cons y ys => simp [preLoop] at h
  | cons x xs ih =>
    intro b d h
    cases b with
    | nil => simp [preLoop] at h
    | cons y ys =>
      rw [preLoop] at h
      by_cases hc : PRVersion.compare x y = 0
      · rw [if_pos hc] at h
        cases d with
        | nil => rfl
        | cons z zs =>
          rw [preLoop, preLoop, prCompare_isCmp.2.2.1 x y z hc]
          split
          · exact ih ys zs h
          · rfl
      · rw [if_neg hc] at h
        exact absurd h hc

theorem preLoop_transNeg : ∀ a b d : List PRVersion, preLoop a b = -1 →
    preLoop b d = -1 → preLoop a d = -1 := by
  intro a
  induction a with
  | nil =>
    intro b d hab hbd
    cases b with
    | nil => simp [preLoop] at hab
    | cons y ys =>
      cases d with
      | nil => simp [preLoop] at hbd
      | cons z zs => simp [preLoop]
  | cons x xs ih =>
    intro b d hab hbd
    cases b with
    | nil => simp [preLoop] at hab
    | cons y ys =>
      cases d with
      | nil => simp [preLoop] at hbd
      | cons z zs =>
        rw [preLoop] at hab hbd ⊢
        by_cases hxy : PRVersion.compare x y = 0
        · rw [if_pos hxy] at hab
          by_cases hyz : PRVersion.compare y z = 0
          · rw [if_pos hyz] at hbd
            have hxz : PRVersion.compare x z = 0 := by
              rw [prCompare_isCmp.2.2.1 x y z hxy]
              exact hyz
            rw [if_pos hxz]
            exact ih ys zs hab hbd
          · rw [if_neg hyz] at hbd
            have hxz : PRVersion.compare x z = -1 := by
              rw [prCompare_isCmp.2.2.1 x y z hxy]
              exact hbd
            rw [if_neg (by omega), hxz]
        · rw [if_neg hxy] at hab
          by_cases hyz : PRVersion.compare y z = 0
          · rw [if_pos hyz] at hbd
            have hxz : PRVersion.compare x z = -1 := by
              rw [← prCompare_isCmp.congr_r hyz x]
              exact hab
            rw [if_neg (by omega), hxz]
          · rw [if_neg hyz] at hbd
            have hxz := prCompare_isCmp.2.2.2 x y z hab hbd
            rw [if_neg (by omega), hxz]

/-- The prerelease-list portion of `Version.Compare`: the empty prerelease is
the greatest, otherwise the pairwise loop decides. -/
def preCmp (a b : List PRVersion) : Int :=
  if a = [] ∧ b = [] then 0
  else if a = [] ∧ b ≠ [] then 1
  else if a ≠ [] ∧ b = [] then -1
  else preLoop a b

theorem preCmp_nil_nil : preCmp [] [] = 0 := rfl

theorem preCmp_nil_cons (y : PRVersion) (ys : List PRVersion) :
    preCmp [] (y :: ys) = 1 := rfl

theorem preCmp_cons_nil (x : PRVersion) (xs : List PRVersion) :
    preCmp (x :: xs) [] = -1 := rfl

theorem preCmp_cons_cons (x y : PRVersion) (xs ys : List PRVersion) :
    preCmp (x :: xs) (y :: ys) = preLoop (x :: xs) (y :: ys) := rfl

theorem preCmp_isCmp : IsCmp preCmp := by
  refine ⟨?_, ?_, ?_, ?_⟩
  · intro a b
    cases a <;> cases b
    · simp [preCmp_nil_nil]
    · simp [preCmp_nil_cons]
    · simp [preCmp_cons_nil]
    · rw [preCmp_cons_cons]
      exact preLoop_range _ _
  · intro a b
    cases a <;> cases b
    · decide
    · rw [preCmp_cons_nil, preCmp_nil_cons]
    · rw [preCmp_nil_cons, preCmp_cons_nil]
      decide
    · rw [preCmp_cons_cons, preCmp_cons_cons]
      exact preLoop_antisym _ _
  · intro a b d h
    cases a <;> cases b
    · rfl
    · rw [preCmp_nil_cons] at h
      exact absurd h (by decide)
    · rw [preCmp_cons_nil] at h
      exact absurd h (by decide)
    · rw [preCmp_cons_cons] at h
      cases d
      · rfl
      · rw [preCmp_cons_cons, preCmp_cons_cons]
        exact preLoop_congr _ _ _ h
  · intro a b d hab hbd
    cases a <;> cases b <;> cases d
    · rw [preCmp_nil_nil] at hab
      exact absurd hab (by decide)
    · rw [preCmp_nil_nil] at hab
      exact absurd hab (by decide)
    · rw [preCmp_nil_cons] at hab
      exact absurd hab (by decide)
    · rw [preCmp_nil_cons] at hab
      exact absurd hab (by decide)
    · rw [preCmp_nil_nil] at hbd
      exact absurd hbd (by decide)
    · rw [preCmp_nil_cons] at hbd
      exact absurd hbd (by decide)
    · rw [preCmp_cons_nil]
    · rw [preCmp_cons_cons] at hab hbd ⊢
      exact preLoop_transNeg _ _ _ hab hbd

end semver

namespace semver

theorem natCmp_zero_iff (a b : Nat) : natCmp a b = 0 ↔ a = b := by
  constructor
  · exact natCmp_eq_zero a b
  · intro h
    rw [natCmp, if_pos h]

/-- `Version.Compare` is the lexicographic chain major → minor → patch →
prerelease (with the empty prerelease greatest). -/
theorem compare_eq_chain (v o : Version) :
    Version.compare v o =
      thenCmp (onProj natCmp Version.Major)
        (thenCmp (onProj natCmp Version.Minor)
          (thenCmp (onProj natCmp Version.Patch) (onProj preCmp Version.Pre))) v o := by
  rw [Version.compare, thenCmp, onProj]
  by_cases h1 : v.Major = o.Major
  · rw [if_neg (by simpa using h1), if_pos ((natCmp_zero_iff _ _).mpr h1), thenCmp, onProj]
    by_cases h2 : v.Minor = o.Minor
    · rw [if_neg (by simpa using h2), if_pos ((natCmp_zero_iff _ _).mpr h2), thenCmp, onProj]
      by_cases h3 : v.Patch = o.Patch
      · rw [if_neg (by simpa using h3), if_pos ((natCmp_zero_iff _ _).mpr h3), onProj, preCmp]
      · have hn : natCmp v.Patch o.Patch ≠ 0 := fun hc => h3 (natCmp_eq_zero _ _ hc)
        rw [if_pos h3, if_neg hn, natCmp, if_neg h3]
    · have hn : natCmp v.Minor o.Minor ≠ 0 := fun hc => h2 (natCmp_eq_zero _ _ hc)
      rw [if_pos h2, if_neg hn, natCmp, if_neg h2]
  · have hn : natCmp v.Major o.Major ≠ 0 := fun hc => h1 (natCmp_eq_zero _ _ hc)
    rw [if_pos h1, if_neg hn, natCmp, if_neg h1]

theorem versionCompare_isCmp : IsCmp Version.compare := by
  have hchain :=
    ((natCmp_isCmp.onProj Version.Major).thenCmp
      ((natCmp_isCmp.onProj Version.Minor).thenCmp
        ((natCmp_isCmp.onProj Version.Patch).thenCmp
          (preCmp_isCmp.onProj Version.Pre))))
  refine ⟨?_, ?_, ?_, ?_⟩
  · intro a b
    rw [compare_eq_chain]
    exact hchain.1 a b
  · intro a b
    rw [compare_eq_chain, compare_eq_chain]
    exact hchain.2.1 a b
  · intro a b d h
    rw [compare_eq_chain] at h ⊢
    rw [compare_eq_chain]
    exact hchain.2.2.1 a b d h
  · intro a b d hab hbd
    rw [compare_eq_chain] at hab hbd ⊢
    exact hchain.2.2.2 a b d hab hbd

end semver

namespace semver

/-- Boolean "strictly lexicographically smaller" on identifier strings. -/
def lexLT (a b : List Char) : Bool := decide (lexCmp a b = -1)

/-- The prerelease-identifier order as the specification words it: numeric
identifiers compare by magnitude, alphanumeric ones lexicographically, and a
numeric identifier is less than an alphanumeric one. (Spec-side definition,
to be compared with the source's `PRVersion.Compare`.) -/
def specIdentCmp (a b : PRVersion) : Int :=
  if a.IsNum then
    if b.IsNum then
      if a.VersionNum < b.VersionNum then -1
      else if a.VersionNum = b.VersionNum then 0
      else 1
    else -1
  else
    if b.IsNum then 1
    else
      if lexLT a.VersionStr b.VersionStr then -1
      else if a.VersionStr = b.VersionStr then 0
      else 1

/-- The prerelease-sequence order as the specification words it: pairwise
comparison of identifiers, and when all shared positions are equal the
shorter sequence is the lesser. (Spec-side definition.) -/
def specPreCmp : List PRVersion → List PRVersion → Int
  | [], [] => 0
  | [], _ :: _ => -1
  | _ :: _, [] => 1
  | a :: as, b :: bs =>
    if specIdentCmp a b = 0 then specPreCmp as bs else specIdentCmp a b

theorem prCompare_eq_spec (a b : PRVersion) :
    PRVersion.compare a b = specIdentCmp a b := by
  obtain ⟨sa, na, ia⟩ := a
  obtain ⟨sb, nb, ib⟩ := b
  cases ia <;> cases ib
  · rw [pr_alpha_alpha]
    show _ = (if lexLT sa sb then -1 else if sa = sb then 0 else 1)
    by_cases he : sa = sb
    · subst he
      rw [if_pos rfl, if_neg (show ¬ lexLT sa sa = true from by
        simp [lexLT, (lexCmp_eq_zero sa sa).mpr rfl]), if_pos rfl]
    · rw [if_neg he]
      rcases lex_cases sa sb he with ⟨h1, h2⟩ | ⟨h1, h2⟩
      · rw [if_neg (show ¬ strGT sa sb from by rw [strGT]; omega),
          if_pos (show lexLT sa sb = true from by simp [lexLT, h1])]
      · rw [if_pos (show strGT sa sb from h1),
          if_neg (show ¬ lexLT sa sb = true from by simp [lexLT]; omega), if_neg he]
  · rw [pr_alpha_num]
    rfl
  · rw [pr_num_alpha]
    rfl
  · rw [pr_num_num]
    show natCmp na nb = (if na < nb then -1 else if na = nb then 0 else 1)
    rw [natCmp]
    split_ifs <;> omega

theorem preLoop_eq_spec : ∀ a b : List PRVersion, preLoop a b = specPreCmp a b := by
  intro a
  induction a with
  | nil => intro b; cases b <;> rfl
  | cons x xs ih =>
    intro b
    cases b with
    | nil => rfl
    | cons y ys =>
      rw [preLoop, specPreCmp, prCompare_eq_spec, ih ys]

/-- `lexLT` is exactly Mathlib's lexicographic strict order on character
lists. -/
theorem lexLT_iff_lex : ∀ a b : List Char, lexLT a b = true ↔ List.Lex (· < ·) a b := by
  intro a
  induction a with
  | nil =>
    intro b
    cases b with
    | nil => simp [lexLT, lexCmp]
    | cons y ys => simp [lexLT, lexCmp, List.Lex.nil]
  | cons x xs ih =>
    intro b
    cases b with
    | nil =>
      rw [show lexLT (x :: xs) [] = false from rfl]
      simp only [Bool.false_eq_true, false_iff]
      intro h
      cases h
    | cons y ys =>
      by_cases hxy : x = y
      · subst hxy
        rw [show lexLT (x :: xs) (x :: ys) = lexLT xs ys from by
          simp [lexLT, lexCmp]]
        rw [ih ys]
        constructor
        · exact List.Lex.cons
        · intro h
          cases h with
          | cons h2 => exact h2
          | rel h2 => exact absurd h2 (lt_irrefl x)
      · rw [show lexLT (x :: xs) (y :: ys) = decide (x.toNat < y.toNat) from by
          simp only [lexLT, lexCmp, if_neg hxy]
          by_cases hlt : x.toNat < y.toNat
          · simp [hlt]
          · simp [hlt]]
        constructor
        · intro h
          exact List.Lex.rel (by simpa using h)
        · intro h
          cases h with
          | cons h2 => exact absurd rfl hxy
          | rel h2 => simpa using h2

/-- **C4.** For versions with equal major, minor and patch: a version without
a prerelease sequence compares greater than one with it; otherwise the
comparison is exactly the pairwise identifier comparison worded in the
specification (`specPreCmp`: numeric by magnitude, alphanumeric
lexicographically — `lexLT` coincides with Mathlib's lexicographic order —
numeric below alphanumeric, shorter-is-lesser tie-break); build metadata
never affects the result. -/
theorem c4_prerelease_order (v o : Version)
    (hM : v.Major = o.Major) (hm : v.Minor = o.Minor) (hp : v.Patch = o.Patch) :
    (v.Pre = [] → o.Pre ≠ [] → Version.compare v o = 1) ∧
    (v.Pre ≠ [] → o.Pre ≠ [] → Version.compare v o = specPreCmp v.Pre o.Pre) ∧
    (∀ a b : List Char, lexLT a b = true ↔ List.Lex (· < ·) a b) ∧
    (∀ b1 b2 : List (List Char),
      Version.compare { v with Build := b1 } o = Version.compare { v with Build := b2 } o) := by
  refine ⟨?_, ?_, lexLT_iff_lex, ?_⟩
  · intro h1 h2
    rw [Version.compare, if_neg (by simpa using hM), if_neg (by simpa using hm),
      if_neg (by simpa using hp), if_neg (by simp [h2]), if_pos ⟨h1, h2⟩]
  · intro h1 h2
    rw [Version.compare, if_neg (by simpa using hM), if_neg (by simpa using hm),
      if_neg (by simpa using hp), if_neg (by simp [h1]), if_neg (by simp [h1]),
      if_neg (by simp [h2]), preLoop_eq_spec]
  · intro b1 b2
    obtain ⟨M, mi, P, pre, bu⟩ := v
    rfl

/-- Witness for `c4_prerelease_order`: `1.0.0-rc.2 < 1.0.0-rc.10` (numeric
identifiers compare by magnitude, not textually). -/
theorem c4_prerelease_order_witness :
    Version.compare ⟨1, 0, 0, [⟨chars "rc", 0, false⟩, ⟨[], 2, true⟩], []⟩
      ⟨1, 0, 0, [⟨chars "rc", 0, false⟩, ⟨[], 10, true⟩], []⟩ = -1 := by
  have h := (c4_prerelease_order
    ⟨1, 0, 0, [⟨chars "rc", 0, false⟩, ⟨[], 2, true⟩], []⟩
    ⟨1, 0, 0, [⟨chars "rc", 0, false⟩, ⟨[], 10, true⟩], []⟩ rfl rfl rfl).2.1
    (by decide) (by decide)
  rw [h]
  decide

/-- **C5.** `Version.Compare` is a total order: antisymmetric and transitive,
with the three concrete orderings named in the specification. -/
theorem c5_total_order :
    (∀ a b : Version, Version.compare b a = - Version.compare a b) ∧
    (∀ a b d : Version, Version.compare a b ≤ 0 → Version.compare b d ≤ 0 →
      Version.compare a d ≤ 0) ∧
    cmpStrings "1.0.0-alpha" "1.0.0" = some (-1) ∧
    cmpStrings "1.0.0-alpha" "1.0.0-alpha.1" = some (-1) ∧
    cmpStrings "1.0.0-alpha.beta" "1.0.0-beta" = some (-1) := by
  refine ⟨versionCompare_isCmp.2.1, ?_, by decide, by decide, by decide⟩
  intro a b d h1 h2
  exact versionCompare_isCmp.le_trans h1 h2

/-- Witness for `c5_total_order` (transitivity at concrete versions). -/
theorem c5_total_order_witness :
    Version.compare ⟨1, 0, 0, [], []⟩ ⟨2, 0, 0, [], []⟩ ≤ 0 :=
  c5_total_order.2.1 ⟨1, 0, 0, [], []⟩ ⟨1, 5, 0, [], []⟩ ⟨2, 0, 0, [], []⟩
    (by decide) (by decide)

end semver

namespace semver

/-- A valid numeric field: nonempty, all digits, no leading zero. -/
def okNum (x : List Char) : Prop :=
  x ≠ [] ∧ containsOnly x numbers = true ∧ hasLeadingZeroes x = false

/-- A valid prerelease token: nonempty and either numeric without leading
zeroes or alphanumeric (and not all digits). -/
def okPreToken (t : List Char) : Prop :=
  t ≠ [] ∧ ((containsOnly t numbers = true ∧ hasLeadingZeroes t = false) ∨
    (containsOnly t numbers = false ∧ containsOnly t alphanum = true))

/-- A valid build token: nonempty and alphanumeric. -/
def okBuildToken (t : List Char) : Prop :=
  t ≠ [] ∧ containsOnly t alphanum = true

/-- Well-formedness of the fields of a (`v`-stripped) version string: three
dot-separated parts, valid numeric major/minor/patch, and valid
prerelease/build tokens. -/
def fieldsOK (s' : List Char) : Prop :=
  match splitN '.' 3 s' with
  | [majS, minS, rest] =>
    okNum majS ∧ okNum minS ∧ okNum (rest.take (subVersionIndex rest).1) ∧
      (∀ t ∈ preTokens rest, okPreToken t) ∧
      (∀ t ∈ buildTokens rest, okBuildToken t)
  | _ => False

theorem parseNum_ok (x : List Char) (k : Nat) (h : parseNum x = some k) : okNum x := by
  rw [parseNum] at h
  split_ifs at h with h1 h2
  rw [parseUint] at h
  split_ifs at h with g1 g2
  exact ⟨g1, by simpa using h1, by simpa using h2⟩

theorem mapM_some_forall {α β : Type} (f : α → Option β) :
    ∀ (ts : List α) (l : List β), ts.mapM f = some l → ∀ t ∈ ts, ∃ y, f t = some y := by
  intro ts
  induction ts with
  | nil => intro l _ t ht; simp at ht
  | cons x xs ih =>
    intro l h t ht
    rw [List.mapM_cons] at h
    simp only [Option.bind_eq_bind, Option.bind_eq_some, Option.pure_def,
      Option.some.injEq] at h
    obtain ⟨y, hy, l', hl', _⟩ := h
    rcases List.mem_cons.mp ht with h1 | h1
    · exact ⟨y, h1 ▸ hy⟩
    · exact ih l' hl' t h1

theorem NewPRVersion_ok (t : List Char) (y : PRVersion) (h : NewPRVersion t = some y) :
    okPreToken t := by
  rw [NewPRVersion] at h
  split_ifs at h with h1 h2 h3 h4
  · exact ⟨h1, Or.inl ⟨h2, by simpa using h3⟩⟩
  · exact ⟨h1, Or.inr ⟨by simpa using h2, h4⟩⟩

theorem buildToken_ok (t : List Char) (y : List Char) (h : buildToken t = some y) :
    okBuildToken t := by
  rw [buildToken] at h
  split_ifs at h with h1 h2
  exact ⟨h1, by simpa using h2⟩

theorem parse_fieldsOK (s : List Char) (v : Version) (h : Parse s = some v) :
    fieldsOK (removeFirstV s) := by
  rw [Parse] at h
  rw [fieldsOK]
  by_cases hnil : removeFirstV s = []
  · rw [parseCore, if_pos hnil] at h
    cases h
  rw [parseCore, if_neg hnil] at h
  rcases hsp : splitN '.' 3 (removeFirstV s) with _ | ⟨a, _ | ⟨b, _ | ⟨c, _ | ⟨d, t⟩⟩⟩⟩ <;>
    rw [hsp] at h
  · cases h
  · cases h
  · cases h
  · -- exactly three fields
    dsimp only at h
    rcases hsv : subVersionIndex c with ⟨sub, preIdx, buildIdx⟩
    rw [hsv] at h
    dsimp only at h
    simp only [Option.bind_eq_bind, Option.bind_eq_some, Option.pure_def,
      Option.some.injEq] at h
    obtain ⟨major, hmaj, minor, hmin, patch, hpatch, hrest⟩ := h
    refine ⟨parseNum_ok a major hmaj, parseNum_ok b minor hmin, ?_, ?_, ?_⟩
    · rw [hsv]
      exact parseNum_ok _ patch hpatch
    · intro tk htk
      rw [preTokens, hsv] at htk
      cases preIdx with
      | none => simp at htk
      | some pi =>
        cases buildIdx with
        | none =>
          simp only [Option.bind_eq_bind, Option.bind_eq_some, Option.some.injEq] at hrest
          obtain ⟨pre, hpre, _⟩ := hrest
          obtain ⟨y, hy⟩ := mapM_some_forall NewPRVersion _ pre hpre tk htk
          exact NewPRVersion_ok tk y hy
        | some bi =>
          simp only [Option.bind_eq_bind, Option.bind_eq_some, Option.some.injEq] at hrest
          obtain ⟨pre, hpre, _⟩ := hrest
          obtain ⟨y, hy⟩ := mapM_some_forall NewPRVersion _ pre hpre tk htk
          exact NewPRVersion_ok tk y hy
    · intro tk htk
      rw [buildTokens, hsv] at htk
      cases buildIdx with
      | none => simp at htk
      | some bi =>
        cases preIdx with
        | none =>
          simp only [Option.bind_eq_bind, Option.bind_eq_some, Option.some.injEq,
            Option.some_bind] at hrest
          obtain ⟨build, hbuild, _⟩ := hrest
          obtain ⟨y, hy⟩ := mapM_some_forall buildToken _ build hbuild tk htk
          exact buildToken_ok tk y hy
        | some pi =>
          simp only [Option.bind_eq_bind, Option.bind_eq_some, Option.some.injEq] at hrest
          obtain ⟨pre, hpre, build, hbuild, _⟩ := hrest
          obtain ⟨y, hy⟩ := mapM_some_forall buildToken _ build hbuild tk htk
          exact buildToken_ok tk y hy
  · cases h

end semver

namespace semver

/-- **C6, counterexample.** Because `Parse` deletes the first `v` anywhere in
the input, `1.0v.3` — whose minor field `0v` contains the non-digit `v` — is
accepted (as `1.0.3`) instead of rejected. -/
theorem c6_rejection_fails :
    Parse (chars "1.0v.3") = some ⟨1, 0, 3, [], []⟩ ∧
      splitN '.' 3 (chars "1.0v.3") = [chars "1", chars "0v", chars "3"] ∧
      'v' ∈ chars "0v" ∧ 'v'.isDigit = false := by
  refine ⟨rfl, rfl, by decide, by decide⟩

/-- **C6, amended.** After the single-`v` strip (the source's handling of the
optional `v` prefix, applied to the first `v` anywhere), parsing rejects the
empty input and accepts only inputs whose major/minor/patch fields are
nonempty all-digit strings without leading zeroes and whose
prerelease/build tokens are well formed; in particular `1.02.3`, `1.2`
and the empty string are rejected. -/
theorem c6_rejection :
    Parse [] = none ∧ Parse (chars "1.02.3") = none ∧ Parse (chars "1.2") = none ∧
      ∀ s v, Parse s = some v → fieldsOK (removeFirstV s) :=
  ⟨rfl, rfl, rfl, parse_fieldsOK⟩

/-- Witness for `c6_rejection` at a concrete accepted input. -/
theorem c6_rejection_witness : fieldsOK (removeFirstV (chars "v1.2.3-rc.1+b2")) :=
  c6_rejection.2.2.2 (chars "v1.2.3-rc.1+b2")
    ⟨1, 2, 3, [⟨chars "rc", 0, false⟩, ⟨[], 1, true⟩], [chars "b2"]⟩ rfl

end semver

/-! ### Section 3: backup-deletion scheduling (upgrade/register.go `autoupdate`)

`autoupdate` computes `futureDate := time.Now().AddDate(0, 0, 7)` and embeds
`futureDate.Format("01/02/2006")` into a `schtasks /create … /sc once
/sd <date> /st 12:00` command: the deletion task runs at 12:00 on the
calendar date seven days after the update, not seven full days later.
Time is modelled in minutes; days are uniform (1440 minutes). -/

/-- The deletion task's scheduled time: 12:00 on the calendar date of
`now + 7 days`. -/
def scheduledDeletionTime (now : Nat) : Nat :=
  ((now + 7 * 1440) / 1440) * 1440 + 720

/-! ### Section 4: `checkForUpdate` (upgrade/register.go, lines 1058–1133) -/

/-- The update descriptor built by `checkForUpdate`. -/
structure Update where
  Version : List Char
  Assets : List (List Char)
  Warnings : List (List Char)
  VersionWarnings : List (List Char)
  SourceURL : List Char
deriving DecidableEq, Repr

/-- The release metadata: version name and `(name, browser_download_url)`
asset pairs. -/
structure Release where
  Version : List Char
  Assets : List ((List Char) × (List Char))
deriving DecidableEq, Repr

/-- The parsed advisory feed: messages keyed by version string or `all`. -/
structure Alerts where
  entries : List ((List Char) × List (List Char))
deriving DecidableEq, Repr

/-- Map lookup on the advisory feed (a missing key yields no messages,
exactly like a lookup in a `nil` Go map). -/
def lookupAlerts (a : Alerts) (key : List Char) : List (List Char) :=
  (a.entries.lookup key).getD []

/-- Environment of one `checkForUpdate` call: outcome of the release fetch
and parse, of the advisory-feed HTTP GET, and of the advisory JSON parse. -/
structure CheckEnv where
  releaseResult : Option Release
  alertsFetch : Option (List Char)
  alertsParse : List Char → Option Alerts

def emptyUpdate : Update := ⟨[], [], [], [], []⟩

/-- The asset-selection loop of `checkForUpdate` (lines 1081–1088). -/
def selectAssets (r : Release) : Update :=
  r.Assets.foldl
    (fun u a =>
      let u := if a.1 = chars "update.exe" then { u with Assets := u.Assets ++ [a.1] } else u
      if a.1 = chars "nvm-noinstall.zip" then { u with SourceURL := a.2 } else u)
    { emptyUpdate with Version := r.Version }

/-- `checkForUpdate` (lines 1058–1133): returns the update descriptor and
whether a non-`nil` error is returned with it. A release fetch/parse failure
and an advisory-feed *fetch* failure both return an error; an advisory-feed
*parse* failure is only logged (the `nil` map yields no warnings). -/
def checkForUpdate (env : CheckEnv) : Update × Bool :=
  match env.releaseResult with
  | none => (emptyUpdate, true)
  | some r =>
    let u1 := selectAssets r
    match env.alertsFetch with
    | none => (u1, true)
    | some body =>
      match env.alertsParse body with
      | none => (u1, false)
      | some alerts =>
        ({ u1 with
            Warnings := u1.Warnings ++ lookupAlerts alerts (chars "all")
            VersionWarnings := u1.VersionWarnings ++ lookupAlerts alerts u1.Version },
          false)

/-! ### Section 5: the update run's status trace (upgrade/register.go `run`,
lines 550–795, and `autoupdate`, lines 851–983)

The `status` channel is unbuffered with a single consumer that stops
consuming at the first terminal event (the console consumer calls
`os.Exit(1)` on `Err` and returns on `Done`; the progress-UI consumer
returns on any of `Err`/`Done`/`Cancel`). A send therefore completes only
while the consumer is alive; after a delivered terminal event the producer
still executes its straight-line actions up to its *next* send, which blocks
forever. `deliveredEvents` and `executedActs` encode exactly that
semantics over the producer's operation list `runOps`. -/

/-- The `Status` struct (one field per send in the source). -/
structure Status where
  Text : List Char := []
  Err : Bool := false
  Done : Bool := false
  Help : Bool := false
  Cancel : Bool := false
  Warn : List Char := []
deriving DecidableEq, Repr

/-- Terminal events: `Err`, `Done`, `Cancel`. -/
def Status.terminal (s : Status) : Bool := s.Err || s.Done || s.Cancel

/-- The side-effecting steps of `run`/`autoupdate`, in source order. -/
inductive RunAct where
  | mkTmpDir | download | writeArchive | mkAssetsDir | downloadChecksum
  | writeChecksumFile | computeChecksum | readChecksum | extract
  | downloadAsset | writeAsset | verboseTest
  | mkBackupDir | zipBackup | mkUpdateDir | copyBackupToUpdate
  | copyAssetsToInstall | stageExe | verboseTest2 | setHiddenUpdate | copyUpdateExe
  | mkRemoveTmp | writeRemoveBackupBatch (sched : Nat) | writeWatcherScript (sched : Nat)
  | startWatcher
deriving DecidableEq, Repr

/-- One producer operation: a channel send or a filesystem/process action. -/
inductive RunOp where
  | send (s : Status)
  | act (a : RunAct)
deriving DecidableEq, Repr

/-- Outcomes of every fallible step of one `run` invocation. -/
structure RunEnv where
  version : List Char
  update : Update
  mkTmpOk : Bool
  downloadOk : Bool
  checksumDownloadOk : Bool
  computeChecksum : Option (List Char)
  readChecksum : Option (List Char)
  unzipOk : Bool
  assetDownloadOk : Bool
  verbose : Bool
  mkBackupOk : Bool
  zipBackupOk : Bool
  verboseTest2Ok : Bool
  updateExeExists : Bool
  copyUpdateExeOk : Bool
  executableOk : Bool
  mkRemoveTmpOk : Bool
  writeBatchOk : Bool
  writeScriptOk : Bool
  startOk : Bool
  now : Nat

/-- ASCII lowering, the relevant fragment of `strings.ToLower` for hex
digests. -/
def charToLower (c : Char) : Char :=
  if 'A' ≤ c ∧ c ≤ 'Z' then Char.ofNat (c.toNat + 32) else c

def toLower (s : List Char) : List Char := s.map charToLower

def sendText (t : String) : RunOp := .send { Text := chars t }

def sendWarn (w : List Char) : RunOp := .send { Warn := w }

def sendErr : RunOp := .send { Err := true }

/-- `autoupdate` (lines 851–983): writes the backup-removal batch file and
the watcher script (both embedding the scheduled deletion time), starts the
watcher, and sends the terminal `Done`. Every failure sends `Err` and calls
`os.Exit(1)` — nothing follows it. -/
def autoupdateOps (env : RunEnv) : List RunOp :=
  if !env.executableOk then [sendErr]
  else
    [RunOp.act .mkRemoveTmp] ++
    (if !env.mkRemoveTmpOk then [sendErr]
     else
      [RunOp.act (.writeRemoveBackupBatch (scheduledDeletionTime env.now))] ++
      (if !env.writeBatchOk then [sendErr]
       else
        [RunOp.act (.writeWatcherScript (scheduledDeletionTime env.now))] ++
        (if !env.writeScriptOk then [sendErr]
         else
          [RunOp.act .startWatcher] ++
          (if !env.startOk then [sendErr]
           else [RunOp.send { Text := chars "restarting app...", Done := true }]))))

/-- The producer's operations of one `run` invocation (lines 550–795),
in source order. Failures that `return` produce no further operations;
failures that send `Err` *continue* to the next statement, exactly as in the
source. -/
def runOps (env : RunEnv) : List RunOp :=
  (env.update.Warnings.map sendWarn) ++
  (match semver.Parse env.version, semver.Parse env.update.Version with
   | some cv, some uv =>
     if semver.Version.lt cv uv then
       (env.update.VersionWarnings.map sendWarn) ++
       [sendText "downloading..."] ++
       [RunOp.act .mkTmpDir] ++ (if !env.mkTmpOk then [sendErr] else []) ++
       [RunOp.act .download] ++ (if !env.downloadOk then [sendErr] else []) ++
       [RunOp.act .writeArchive, RunOp.act .mkAssetsDir, RunOp.act .downloadChecksum] ++
       (if !env.checksumDownloadOk then []
        else
         [RunOp.act .writeChecksumFile, sendText "verifying checksum...",
          RunOp.act .computeChecksum] ++
         (match env.computeChecksum with | none => [sendErr] | some _ => []) ++
         [RunOp.act .readChecksum] ++
         (match env.readChecksum with | none => [sendErr] | some _ => []) ++
         (if toLower (env.computeChecksum.getD []) ≠ toLower (env.readChecksum.getD [])
          then [sendErr] else []) ++
         [sendText "extracting update...", RunOp.act .extract] ++
         (if !env.unzipOk then [sendErr] else []) ++
         (if env.update.Assets ≠ [] then
           [sendText "downloading additional assets..."] ++
           (env.update.Assets.map (fun _ =>
             [RunOp.act .downloadAsset] ++
             (if !env.assetDownloadOk then [sendErr] else []) ++
             [RunOp.act .writeAsset])).flatten
          else []) ++
         (if env.verbose then [RunOp.act .verboseTest] else []) ++
         [sendText "applying update...", RunOp.act .mkBackupDir] ++
         (if !env.mkBackupOk then [sendErr] else []) ++
         [RunOp.act .zipBackup] ++ (if !env.zipBackupOk then [sendErr] else []) ++
         [RunOp.act .mkUpdateDir, RunOp.act .copyBackupToUpdate,
          RunOp.act .copyAssetsToInstall, RunOp.act .stageExe] ++
         (if env.verbose then
           [RunOp.act .verboseTest2] ++ (if !env.verboseTest2Ok then [sendErr] else [])
          else []) ++
         [RunOp.act .setHiddenUpdate] ++
         (if env.updateExeExists then
           [RunOp.act .copyUpdateExe] ++
           (if !env.copyUpdateExeOk then [sendErr] else autoupdateOps env)
          else autoupdateOps env))
     else [RunOp.send { Text := chars "nvm is up to date", Done := true }]
   | _, _ => [])

/-- Actions the producer still performs after the consumer stopped:
everything up to its next (forever-blocking) send. -/
def actsUntilSend : List RunOp → List RunAct
  | [] => []
  | .act a :: rest => a :: actsUntilSend rest
  | .send _ :: _ => []

/-- The sequence of events actually delivered on the status channel: sends
complete while the consumer is alive; the consumer stops at the first
terminal event. -/
def deliveredEvents : List RunOp → List Status
  | [] => []
  | .act _ :: rest => deliveredEvents rest
  | .send s :: rest => if s.terminal then [s] else s :: deliveredEvents rest

/-- The actions the producer actually executes: all of them while the
consumer is alive, and only those before the next send once a terminal event
has been delivered. -/
def executedActs : List RunOp → List RunAct
  | [] => []
  | .act a :: rest => a :: executedActs rest
  | .send s :: rest => if s.terminal then actsUntilSend rest else executedActs rest

theorem selectAssets_version (r : Release) : (selectAssets r).Version = r.Version := by
  rw [selectAssets]
  generalize hinit : ({ emptyUpdate with Version := r.Version } : Update) = u0
  have hv : u0.Version = r.Version := by rw [← hinit]
  clear hinit
  induction r.Assets generalizing u0 with
  | nil => simpa using hv
  | cons a rest ih =>
    rw [List.foldl_cons]
    apply ih
    dsimp only
    split <;> split <;> simpa using hv

/-- **C7, counterexample.** A failure to *fetch* the advisory feed is not
recoverable: `checkForUpdate` returns a non-`nil` error (which `run` treats
as fatal: "failed to obtain update data"). -/
theorem c7_alert_fetch_fatal :
    (checkForUpdate ⟨some ⟨chars "1.2.3", []⟩, none, fun _ => none⟩).2 = true := rfl

/-- **C7, amended.** Only a failure to *parse* the advisory feed is
recoverable: once the release metadata and the advisory-feed HTTP GET have
succeeded, `checkForUpdate` returns the update descriptor with a `nil`
error even when the advisory JSON does not parse; a failed advisory-feed
*fetch* is returned as an error and aborts the update check
(see `c7_alert_fetch_fatal`). -/
theorem c7_alert_parse_recoverable (env : CheckEnv) (r : Release) (body : List Char)
    (h1 : env.releaseResult = some r) (h2 : env.alertsFetch = some body) :
    (checkForUpdate env).2 = false ∧ (checkForUpdate env).1.Version = r.Version := by
  rw [checkForUpdate, h1, h2]
  dsimp only
  cases hp : env.alertsParse body with
  | none => exact ⟨rfl, selectAssets_version r⟩
  | some alerts =>
    constructor
    · rfl
    · show (selectAssets r).Version = r.Version
      exact selectAssets_version r

/-- Witness for `c7_alert_parse_recoverable`: a concrete environment whose
advisory feed fetch succeeds but whose JSON does not parse. -/
theorem c7_alert_parse_recoverable_witness :
    (checkForUpdate ⟨some ⟨chars "9.9.9", []⟩, some [], fun _ => none⟩).2 = false ∧
      (checkForUpdate ⟨some ⟨chars "9.9.9", []⟩, some [], fun _ => none⟩).1.Version =
        chars "9.9.9" :=
  c7_alert_parse_recoverable ⟨some ⟨chars "9.9.9", []⟩, some [], fun _ => none⟩
    ⟨chars "9.9.9", []⟩ [] rfl rfl

theorem deliveredEvents_count (ops : List RunOp) :
    (deliveredEvents ops).countP (fun s => s.terminal) ≤ 1 := by
  induction ops with
  | nil => simp [deliveredEvents]
  | cons op rest ih =>
    cases op with
    | act a => simpa [deliveredEvents] using ih
    | send s =>
      rw [deliveredEvents]
      by_cases ht : s.terminal
      · rw [if_pos ht]
        simp [List.countP_cons, ht]
      · rw [if_neg ht]
        rw [List.countP_cons]
        simp only [ht]
        simpa using ih

theorem deliveredEvents_last (ops : List RunOp) :
    ∀ l₁ x l₂, deliveredEvents ops = l₁ ++ x :: l₂ → x.terminal = true → l₂ = [] := by
  induction ops with
  | nil =>
    intro l₁ x l₂ h
    exact absurd h.symm (by simp [deliveredEvents])
  | cons op rest ih =>
    intro l₁ x l₂ h hx
    cases op with
    | act a =>
      rw [deliveredEvents] at h
      exact ih l₁ x l₂ h hx
    | send s =>
      rw [deliveredEvents] at h
      by_cases ht : s.terminal
      · rw [if_pos ht] at h
        cases l₁ with
        | nil =>
          simp at h
          exact h.2
        | cons c cs =>
          simp at h
      · rw [if_neg ht] at h
        cases l₁ with
        | nil =>
          simp at h
          rw [← h.1] at hx
          exact absurd hx (by simp [ht])
        | cons c cs =>
          simp at h
          exact ih cs x l₂ h.2 hx

/-- **C9.** In the delivered status-event sequence of one update run, at most
one terminal event (`Err`, `Done`, `Cancel`) ever appears, and no event of
any kind follows a terminal event: every send after the consumer has stopped
blocks forever, so the event at the end of the delivered sequence is the
only terminal one. -/
theorem c9_terminal_events (env : RunEnv) :
    (deliveredEvents (runOps env)).countP (fun s => s.terminal) ≤ 1 ∧
      ∀ l₁ x l₂, deliveredEvents (runOps env) = l₁ ++ x :: l₂ → x.terminal = true →
        l₂ = [] :=
  ⟨deliveredEvents_count (runOps env), deliveredEvents_last (runOps env)⟩

/-- Witness for `c9_terminal_events` at a concrete up-to-date run (the
delivered sequence is the single terminal "nvm is up to date" event). -/
theorem c9_terminal_events_witness :
    (deliveredEvents (runOps
      { version := chars "1.0.0", update := ⟨chars "1.0.0", [], [], [], []⟩,
        mkTmpOk := true, downloadOk := true, checksumDownloadOk := true,
        computeChecksum := some [], readChecksum := some [], unzipOk := true,
        assetDownloadOk := true, verbose := false, mkBackupOk := true,
        zipBackupOk := true, verboseTest2Ok := true, updateExeExists := false,
        copyUpdateExeOk := true, executableOk := true, mkRemoveTmpOk := true,
        writeBatchOk := true, writeScriptOk := true, startOk := true,
        now := 0 })).countP (fun s => s.terminal) ≤ 1 ∧ ([] : List Status) = [] := by
  refine ⟨(c9_terminal_events _).1, ?_⟩
  exact (c9_terminal_events
    { version := chars "1.0.0", update := ⟨chars "1.0.0", [], [], [], []⟩,
      mkTmpOk := true, downloadOk := true, checksumDownloadOk := true,
      computeChecksum := some [], readChecksum := some [], unzipOk := true,
      assetDownloadOk := true, verbose := false, mkBackupOk := true,
      zipBackupOk := true, verboseTest2Ok := true, updateExeExists := false,
      copyUpdateExeOk := true, executableOk := true, mkRemoveTmpOk := true,
      writeBatchOk := true, writeScriptOk := true, startOk := true,
      now := 0 }).2 [] { Text := chars "nvm is up to date", Done := true } []
    (by decide) (by decide)

theorem executedActs_warns (ws : List (List Char)) (rest : List RunOp) :
    executedActs ((ws.map sendWarn) ++ rest) = executedActs rest := by
  induction ws with
  | nil => rfl
  | cons w ws ih =>
    simp only [List.map_cons, List.cons_append, executedActs]
    rw [if_neg (by simp [sendWarn, Status.terminal])]
    exact ih

theorem deliveredEvents_warns (ws : List (List Char)) (rest : List RunOp) :
    deliveredEvents ((ws.map sendWarn) ++ rest) =
      (ws.map fun w => { Warn := w }) ++ deliveredEvents rest := by
  induction ws with
  | nil => rfl
  | cons w ws ih =>
    simp only [List.map_cons, List.cons_append, deliveredEvents]
    rw [if_neg (by simp [sendWarn, Status.terminal])]
    rw [List.append_eq, ih]

/-- The environment reaches the checksum-verification step: the version gate
passes and the steps before verification succeed. -/
def ReachesChecksum (env : RunEnv) : Prop :=
  (∃ cv uv, semver.Parse env.version = some cv ∧
    semver.Parse env.update.Version = some uv ∧ semver.Version.lt cv uv = true) ∧
  env.mkTmpOk = true ∧ env.downloadOk = true ∧ env.checksumDownloadOk = true

theorem executedActs_mismatch_pre (env : RunEnv) (c st : List Char)
    (hc : env.computeChecksum = some c) (hs : env.readChecksum = some st)
    (hne : toLower c ≠ toLower st) :
    ∀ a ∈ executedActs (runOps env),
      a ∈ [RunAct.mkTmpDir, RunAct.download, RunAct.writeArchive, RunAct.mkAssetsDir,
           RunAct.downloadChecksum, RunAct.writeChecksumFile, RunAct.computeChecksum,
           RunAct.readChecksum] := by
  intro a ha
  rw [runOps, executedActs_warns] at ha
  rcases hpv : semver.Parse env.version with _ | cv
  · rw [hpv] at ha
    simp [executedActs] at ha
  rcases hpu : semver.Parse env.update.Version with _ | uv
  · rw [hpv, hpu] at ha
    simp [executedActs] at ha
  rw [hpv, hpu] at ha
  dsimp only at ha
  by_cases hlt : semver.Version.lt cv uv
  · rw [if_pos hlt] at ha
    simp only [List.append_assoc] at ha
    rw [executedActs_warns] at ha
    rcases hmk : env.mkTmpOk <;> rcases hdl : env.downloadOk <;>
        rcases hck : env.checksumDownloadOk <;>
      rw [hmk, hdl, hck] at ha <;>
      simp [executedActs, actsUntilSend, Status.terminal, sendText, sendErr,
        hc, hs, hne] at ha <;>
      simp only [List.mem_cons, List.not_mem_nil, or_false] <;> tauto
  · rw [if_neg hlt] at ha
    simp [executedActs, actsUntilSend, Status.terminal] at ha

theorem deliveredEvents_mismatch_err (env : RunEnv) (c st : List Char)
    (hc : env.computeChecksum = some c) (hs : env.readChecksum = some st)
    (hne : toLower c ≠ toLower st) (hreach : ReachesChecksum env) :
    ∃ e ∈ deliveredEvents (runOps env), e.Err = true := by
  obtain ⟨⟨cv, uv, hpv, hpu, hlt⟩, hmk, hdl, hck⟩ := hreach
  rw [runOps, hpv, hpu]
  dsimp only
  rw [if_pos hlt]
  simp only [List.append_assoc]
  rw [deliveredEvents_warns, deliveredEvents_warns, hmk, hdl, hck, hc, hs]
  refine ⟨{ Err := true }, ?_, rfl⟩
  simp [deliveredEvents, Status.terminal, sendText, sendErr, hne]

/-- C2: the checksum gate in `run` (register.go lines 683–707). The digests
are compared after ASCII lowering; on a mismatch an `Err` status is the
terminal event, and because the consumer stops there the producer blocks on
its next send, so the extraction and every installation step never execute
(whatever the other step outcomes); when the run reaches the verification
step the `Err` is actually delivered. On a match, a run that reaches
verification goes on to execute the extraction. -/
theorem c2_checksum_gate (env : RunEnv) (c st : List Char)
    (hc : env.computeChecksum = some c) (hs : env.readChecksum = some st) :
    (toLower c ≠ toLower st →
      (RunAct.extract ∉ executedActs (runOps env) ∧
       RunAct.copyAssetsToInstall ∉ executedActs (runOps env) ∧
       RunAct.stageExe ∉ executedActs (runOps env) ∧
       RunAct.copyBackupToUpdate ∉ executedActs (runOps env)) ∧
      (ReachesChecksum env → ∃ e ∈ deliveredEvents (runOps env), e.Err = true)) ∧
    (toLower c = toLower st → ReachesChecksum env →
      RunAct.extract ∈ executedActs (runOps env)) := by
  constructor
  · intro hne
    refine ⟨⟨fun h => absurd (executedActs_mismatch_pre env c st hc hs hne _ h) (by decide),
      fun h => absurd (executedActs_mismatch_pre env c st hc hs hne _ h) (by decide),
      fun h => absurd (executedActs_mismatch_pre env c st hc hs hne _ h) (by decide),
      fun h => absurd (executedActs_mismatch_pre env c st hc hs hne _ h) (by decide)⟩,
      deliveredEvents_mismatch_err env c st hc hs hne⟩
  · intro heq hreach
    obtain ⟨⟨cv, uv, hpv, hpu, hlt⟩, hmk, hdl, hck⟩ := hreach
    rw [runOps, hpv, hpu]
    dsimp only
    rw [if_pos hlt]
    simp only [List.append_assoc]
    rw [executedActs_warns, executedActs_warns, hmk, hdl, hck, hc, hs]
    simp [executedActs, actsUntilSend, Status.terminal, sendText, sendErr, heq]

theorem c2_checksum_gate_witness :
    (RunAct.extract ∉ executedActs (runOps
      { version := chars "1.0.0", update := ⟨chars "1.1.0", [], [], [], []⟩,
        mkTmpOk := true, downloadOk := true, checksumDownloadOk := true,
        computeChecksum := some (chars "aa"), readChecksum := some (chars "bb"),
        unzipOk := true, assetDownloadOk := true, verbose := false,
        mkBackupOk := true, zipBackupOk := true, verboseTest2Ok := true,
        updateExeExists := false, copyUpdateExeOk := true, executableOk := true,
        mkRemoveTmpOk := true, writeBatchOk := true, writeScriptOk := true,
        startOk := true, now := 0 })) ∧
    (RunAct.extract ∈ executedActs (runOps
      { version := chars "1.0.0", update := ⟨chars "1.1.0", [], [], [], []⟩,
        mkTmpOk := true, downloadOk := true, checksumDownloadOk := true,
        computeChecksum := some (chars "AB"), readChecksum := some (chars "ab"),
        unzipOk := true, assetDownloadOk := true, verbose := false,
        mkBackupOk := true, zipBackupOk := true, verboseTest2Ok := true,
        updateExeExists := false, copyUpdateExeOk := true, executableOk := true,
        mkRemoveTmpOk := true, writeBatchOk := true, writeScriptOk := true,
        startOk := true, now := 0 })) := by
  constructor
  · exact ((c2_checksum_gate _ (chars "aa") (chars "bb") rfl rfl).1
      (by decide)).1.1
  · exact (c2_checksum_gate _ (chars "AB") (chars "ab") rfl rfl).2
      (by decide) ⟨⟨_, _, rfl, rfl, by decide⟩, rfl, rfl, rfl⟩

theorem executedActs_assetsFlatten (n : Nat) (rest : List RunOp) :
    executedActs
      ((List.replicate n
        [RunOp.act RunAct.downloadAsset, RunOp.act RunAct.writeAsset]).flatten ++ rest)
      = (List.replicate n [RunAct.downloadAsset, RunAct.writeAsset]).flatten
          ++ executedActs rest := by
  induction n with
  | zero => rfl
  | succ n ih =>
    simp only [List.replicate_succ, List.flatten_cons, List.cons_append,
      List.append_assoc, executedActs, List.append_eq, List.nil_append]
    rw [ih]

theorem count_zip_assetsFlatten (n : Nat) :
    ((List.replicate n [RunAct.downloadAsset, RunAct.writeAsset]).flatten).count
      RunAct.zipBackup = 0 := by
  induction n with
  | zero => rfl
  | succ n ih =>
    simp only [List.replicate_succ, List.flatten_cons, List.count_append, ih]
    decide

theorem count_copy_assetsFlatten (n : Nat) :
    ((List.replicate n [RunAct.downloadAsset, RunAct.writeAsset]).flatten).count
      RunAct.copyBackupToUpdate = 0 := by
  induction n with
  | zero => rfl
  | succ n ih =>
    simp only [List.replicate_succ, List.flatten_cons, List.count_append, ih]
    decide

/-- Every fallible step of `run` and `autoupdate` succeeds and an update is
available: the run ends with the terminal `Done` from `autoupdate`. -/
def SuccessfulRun (env : RunEnv) : Prop :=
  ReachesChecksum env ∧
  (∃ c st, env.computeChecksum = some c ∧ env.readChecksum = some st ∧
    toLower c = toLower st) ∧
  env.unzipOk = true ∧ env.assetDownloadOk = true ∧ env.mkBackupOk = true ∧
  env.zipBackupOk = true ∧ env.verboseTest2Ok = true ∧
  env.copyUpdateExeOk = true ∧ env.executableOk = true ∧
  env.mkRemoveTmpOk = true ∧ env.writeBatchOk = true ∧
  env.writeScriptOk = true ∧ env.startOk = true

/-- A successful run finishing at minute 780 of day 0 (13:00) schedules the
staging-directory deletion at noon of day 7, which is before seven full days
have elapsed: `schtasks /sc once /sd now+7d /st 12:00` rounds to 12:00 of the
calendar date, not to `now + 7·24h`. -/
theorem c8_schedule_before_seven_days :
    RunAct.writeWatcherScript (scheduledDeletionTime 780) ∈ executedActs (runOps
      { version := chars "1.0.0", update := ⟨chars "1.1.0", [], [], [], []⟩,
        mkTmpOk := true, downloadOk := true, checksumDownloadOk := true,
        computeChecksum := some (chars "aa"), readChecksum := some (chars "aa"),
        unzipOk := true, assetDownloadOk := true, verbose := false,
        mkBackupOk := true, zipBackupOk := true, verboseTest2Ok := true,
        updateExeExists := false, copyUpdateExeOk := true, executableOk := true,
        mkRemoveTmpOk := true, writeBatchOk := true, writeScriptOk := true,
        startOk := true, now := 780 }) ∧
    scheduledDeletionTime 780 < 780 + 7 * 1440 := by
  constructor
  · decide
  · decide

/-- C8 (amended): in every successful run the backup archive is zipped
exactly once and copied into the hidden `.update` staging directory exactly
once, and the watcher script embedding the scheduled deletion time is
written. The deletion is scheduled at 12:00 of the calendar day seven days
ahead: that is never earlier than 7 days minus 12 hours after completion,
and when the run completes at or before noon it is no earlier than 7 full
days after completion — but not in general (see the counterexample at
minute 780). -/
theorem c8_backup_schedule (env : RunEnv) (h : SuccessfulRun env) :
    (executedActs (runOps env)).count RunAct.zipBackup = 1 ∧
    (executedActs (runOps env)).count RunAct.copyBackupToUpdate = 1 ∧
    RunAct.writeWatcherScript (scheduledDeletionTime env.now)
      ∈ executedActs (runOps env) ∧
    (∀ t, t + 7 * 1440 - 720 ≤ scheduledDeletionTime t) ∧
    (∀ t, t % 1440 ≤ 720 → t + 7 * 1440 ≤ scheduledDeletionTime t) := by
  obtain ⟨⟨⟨cv, uv, hpv, hpu, hlt⟩, hmk, hdl, hck⟩,
    ⟨c, st, hc, hs, heq⟩, hun, has, hmb, hzb, hv2, hcu, hex, hmr, hwb,
    hws, hst⟩ := h
  have key : (executedActs (runOps env)).count RunAct.zipBackup = 1 ∧
      (executedActs (runOps env)).count RunAct.copyBackupToUpdate = 1 ∧
      RunAct.writeWatcherScript (scheduledDeletionTime env.now)
        ∈ executedActs (runOps env) := by
    rw [runOps, hpv, hpu]
    dsimp only
    rw [if_pos hlt]
    simp only [List.append_assoc]
    rw [executedActs_warns, executedActs_warns, hc, hs]
    rcases hvb : env.verbose <;> rcases hue : env.updateExeExists <;>
      by_cases hA : env.update.Assets = [] <;>
      simp [hvb, hue, hA, hmk, hdl, hck, executedActs, actsUntilSend,
        Status.terminal, sendText, sendErr, heq, autoupdateOps, hex, hmr,
        hwb, hws, hst, hun, has, hmb, hzb, hv2, hcu,
        executedActs_assetsFlatten, count_zip_assetsFlatten,
        count_copy_assetsFlatten, List.count_cons, List.count_append]
  refine ⟨key.1, key.2.1, key.2.2, ?_, ?_⟩
  · intro t
    rw [scheduledDeletionTime]
    omega
  · intro t ht
    rw [scheduledDeletionTime]
    omega

theorem c8_backup_schedule_witness :
    (executedActs (runOps
      { version := chars "1.0.0", update := ⟨chars "1.1.0", [], [], [], []⟩,
        mkTmpOk := true, downloadOk := true, checksumDownloadOk := true,
        computeChecksum := some (chars "aa"), readChecksum := some (chars "aa"),
        unzipOk := true, assetDownloadOk := true, verbose := false,
        mkBackupOk := true, zipBackupOk := true, verboseTest2Ok := true,
        updateExeExists := false, copyUpdateExeOk := true, executableOk := true,
        mkRemoveTmpOk := true, writeBatchOk := true, writeScriptOk := true,
        startOk := true, now := 0 })).count RunAct.zipBackup = 1 ∧
    (executedActs (runOps
      { version := chars "1.0.0", update := ⟨chars "1.1.0", [], [], [], []⟩,
        mkTmpOk := true, downloadOk := true, checksumDownloadOk := true,
        computeChecksum := some (chars "aa"), readChecksum := some (chars "aa"),
        unzipOk := true, assetDownloadOk := true, verbose := false,
        mkBackupOk := true, zipBackupOk := true, verboseTest2Ok := true,
        updateExeExists := false, copyUpdateExeOk := true, executableOk := true,
        mkRemoveTmpOk := true, writeBatchOk := true, writeScriptOk := true,
        startOk := true, now := 0 })).count RunAct.copyBackupToUpdate = 1 ∧
    RunAct.writeWatcherScript (scheduledDeletionTime 0) ∈ executedActs (runOps
      { version := chars "1.0.0", update := ⟨chars "1.1.0", [], [], [], []⟩,
        mkTmpOk := true, downloadOk := true, checksumDownloadOk := true,
        computeChecksum := some (chars "aa"), readChecksum := some (chars "aa"),
        unzipOk := true, assetDownloadOk := true, verbose := false,
        mkBackupOk := true, zipBackupOk := true, verboseTest2Ok := true,
        updateExeExists := false, copyUpdateExeOk := true, executableOk := true,
        mkRemoveTmpOk := true, writeBatchOk := true, writeScriptOk := true,
        startOk := true, now := 0 }) ∧
    (∀ t, t + 7 * 1440 - 720 ≤ scheduledDeletionTime t) ∧
    (∀ t, t % 1440 ≤ 720 → t + 7 * 1440 ≤ scheduledDeletionTime t) := by
  exact c8_backup_schedule _
    ⟨⟨⟨_, _, rfl, rfl, by decide⟩, rfl, rfl, rfl⟩,
     ⟨chars "aa", chars "aa", rfl, rfl, rfl⟩,
     rfl, rfl, rfl, rfl, rfl, rfl, rfl, rfl, rfl, rfl, rfl⟩
